import Mathlib

/-!
Verification of the chess-arena move-selection core.

The repository's search core (src/engine/agents/minimax_agent.py and
src/engine/agents/mcts_agent.py) is embedded shallowly.  The chess-rules
engine (python-chess) is, per the specification, an external "Position
Oracle"; it is modelled as an abstract structure of observation functions
over an opaque position type.  All repository code (evaluation,
piece-square tables, move ordering, negamax with alpha-beta pruning, the
root search, and the MCTS loop) is translated faithfully from the source.
Machine integers are modelled as `Int` (Python ints are unbounded, so no
wraparound is needed); the float-valued MCTS rollout results are modelled
as `Rat` (only their additive structure is used by the claims); the
wall-clock deadline of the MCTS loop is modelled as an iteration count,
and the injected randomness (shuffle, rollout, random fallback) as
explicit parameters, following the spec's own design note that randomness
must be an injectable input.
-/

/-- Piece colours, as in python-chess (chess.WHITE / chess.BLACK). -/
inductive Color where
  | white
  | black
deriving DecidableEq, Repr

/-- Piece kinds, as in python-chess (chess.PAWN .. chess.KING). -/
inductive PieceType where
  | pawn
  | knight
  | bishop
  | rook
  | queen
  | king
deriving DecidableEq, Repr

/-- A piece: kind plus colour (python-chess `chess.Piece`). -/
structure Piece where
  pt : PieceType
  color : Color
deriving DecidableEq, Repr

/-- A move: origin square, destination square, optional promotion kind
(python-chess `chess.Move`; equality is structural). Squares are indexed
a1 = 0 .. h8 = 63 as in python-chess. -/
structure Move where
  fromSq : Fin 64
  toSq : Fin 64
  promo : Option PieceType
deriving DecidableEq, Repr

instance : Inhabited Move := ⟨⟨0, 0, none⟩⟩

/-- PIECE_VALUES of minimax_agent.py (centipawns); the king is 0 because
checkmate is handled by the mate sentinel. -/
def pieceValue : PieceType → Int
  | PieceType.pawn => 100
  | PieceType.knight => 320
  | PieceType.bishop => 330
  | PieceType.rook => 500
  | PieceType.queen => 900
  | PieceType.king => 0

/-- PAWN_TABLE of minimax_agent.py. -/
def PAWN_TABLE : List Int :=
  [ 0,  0,  0,  0,  0,  0,  0,  0,
   50, 50, 50, 50, 50, 50, 50, 50,
   10, 10, 20, 30, 30, 20, 10, 10,
    5,  5, 10, 25, 25, 10,  5,  5,
    0,  0,  0, 20, 20,  0,  0,  0,
    5, -5,-10,  0,  0,-10, -5,  5,
    5, 10, 10,-20,-20, 10, 10,  5,
    0,  0,  0,  0,  0,  0,  0,  0]

/-- KNIGHT_TABLE of minimax_agent.py. -/
def KNIGHT_TABLE : List Int :=
  [-50,-40,-30,-30,-30,-30,-40,-50,
   -40,-20,  0,  0,  0,  0,-20,-40,
   -30,  0, 10, 15, 15, 10,  0,-30,
   -30,  5, 15, 20, 20, 15,  5,-30,
   -30,  0, 15, 20, 20, 15,  0,-30,
   -30,  5, 10, 15, 15, 10,  5,-30,
   -40,-20,  0,  5,  5,  0,-20,-40,
   -50,-40,-30,-30,-30,-30,-40,-50]

/-- BISHOP_TABLE of minimax_agent.py. -/
def BISHOP_TABLE : List Int :=
  [-20,-10,-10,-10,-10,-10,-10,-20,
   -10,  0,  0,  0,  0,  0,  0,-10,
   -10,  0, 10, 10, 10, 10,  0,-10,
   -10,  5,  5, 10, 10,  5,  5,-10,
   -10,  0,  5, 10, 10,  5,  0,-10,
   -10, 10, 10, 10, 10, 10, 10,-10,
   -10,  5,  0,  0,  0,  0,  5,-10,
   -20,-10,-10,-10,-10,-10,-10,-20]

/-- ROOK_TABLE of minimax_agent.py. -/
def ROOK_TABLE : List Int :=
  [ 0,  0,  0,  0,  0,  0,  0,  0,
    5, 10, 10, 10, 10, 10, 10,  5,
   -5,  0,  0,  0,  0,  0,  0, -5,
   -5,  0,  0,  0,  0,  0,  0, -5,
   -5,  0,  0,  0,  0,  0,  0, -5,
   -5,  0,  0,  0,  0,  0,  0, -5,
   -5,  0,  0,  0,  0,  0,  0, -5,
    0,  0,  0,  5,  5,  0,  0,  0]

/-- QUEEN_TABLE of minimax_agent.py. -/
def QUEEN_TABLE : List Int :=
  [-20,-10,-10, -5, -5,-10,-10,-20,
   -10,  0,  0,  0,  0,  0,  0,-10,
   -10,  0,  5,  5,  5,  5,  0,-10,
    -5,  0,  5,  5,  5,  5,  0, -5,
     0,  0,  5,  5,  5,  5,  0, -5,
   -10,  5,  5,  5,  5,  5,  0,-10,
   -10,  0,  5,  0,  0,  0,  0,-10,
   -20,-10,-10, -5, -5,-10,-10,-20]

/-- KING_TABLE_MIDDLEGAME of minimax_agent.py. -/
def KING_TABLE_MIDDLEGAME : List Int :=
  [-30,-40,-40,-50,-50,-40,-40,-30,
   -30,-40,-40,-50,-50,-40,-40,-30,
   -30,-40,-40,-50,-50,-40,-40,-30,
   -30,-40,-40,-50,-50,-40,-40,-30,
   -20,-30,-30,-40,-40,-30,-30,-20,
   -10,-20,-20,-20,-20,-20,-20,-10,
    20, 20,  0,  0,  0,  0, 20, 20,
    20, 30, 10,  0,  0, 10, 30, 20]

/-- The PST dictionary of minimax_agent.py: raw table per piece kind,
written with rank 8 at the top (index 0) and rank 1 at the bottom. -/
def pstRaw : PieceType → List Int
  | PieceType.pawn => PAWN_TABLE
  | PieceType.knight => KNIGHT_TABLE
  | PieceType.bishop => BISHOP_TABLE
  | PieceType.rook => ROOK_TABLE
  | PieceType.queen => QUEEN_TABLE
  | PieceType.king => KING_TABLE_MIDDLEGAME

/-- The _MIRROR list of minimax_agent.py: square on rank r, file f maps to
(7 - r) * 8 + f. -/
def mirrorSq (sq : Fin 64) : Fin 64 :=
  ⟨(7 - sq.val / 8) * 8 + sq.val % 8, by omega⟩

/-- PST_WHITE of minimax_agent.py: `white_tbl[sq] = table[_MIRROR[sq]]`. -/
def pstWhite (pt : PieceType) (sq : Fin 64) : Int :=
  (pstRaw pt).getD (mirrorSq sq).val 0

/-- PST_BLACK of minimax_agent.py: `black_tbl[sq] = table[sq]`. -/
def pstBlack (pt : PieceType) (sq : Fin 64) : Int :=
  (pstRaw pt).getD sq.val 0

/-- CHECKMATE_SCORE of minimax_agent.py. -/
def CHECKMATE_SCORE : Int := 100000

/-- The Position Oracle of spec section 6: the external chess-rules engine
(python-chess) consumed, not implemented, by the search core.  `Pos` is the
opaque position type; the fields are the oracle observations the core
actually calls. -/
structure Oracle (Pos : Type) where
  pieceAt : Pos → Fin 64 → Option Piece
  turn : Pos → Color
  isCheckmate : Pos → Bool
  isStalemate : Pos → Bool
  isInsufficientMaterial : Pos → Bool
  canClaimDraw : Pos → Bool
  isCheck : Pos → Bool
  isGameOver : Pos → Bool
  legalMoves : Pos → List Move
  play : Pos → Move → Pos
  isCapture : Pos → Move → Bool

/-- `evaluate` of minimax_agent.py: static evaluation in centipawns from
the side-to-move's point of view.  The square loop is the source's
`for sq in chess.SQUARES` accumulation. -/
def evaluate {Pos : Type} (O : Oracle Pos) (p : Pos) : Int :=
  if O.isCheckmate p then -CHECKMATE_SCORE
  else if O.isStalemate p || O.isInsufficientMaterial p || O.canClaimDraw p then 0
  else
    let material := (List.finRange 64).foldl (fun acc sq =>
      match O.pieceAt p sq with
      | none => acc
      | some pc =>
        match pc.color with
        | Color.white => acc + (pieceValue pc.pt + pstWhite pc.pt sq)
        | Color.black => acc - (pieceValue pc.pt + pstBlack pc.pt sq)) 0
    if O.turn p = Color.black then -material else material

/-- The signed per-square contribution described by the spec: piece base
value plus the positional table bonus for the piece kind, square and
colour, added for White pieces and subtracted for Black pieces. -/
def evalSpecTerm {Pos : Type} (O : Oracle Pos) (p : Pos) (sq : Fin 64) : Int :=
  match O.pieceAt p sq with
  | none => 0
  | some pc =>
    match pc.color with
    | Color.white => pieceValue pc.pt + pstWhite pc.pt sq
    | Color.black => -(pieceValue pc.pt + pstBlack pc.pt sq)

/-- The evaluation rules exactly as the spec words them (spec section 4.1):
mate sentinel, draw rules, then the signed sum over every occupied square,
negated when the side to move is Black. -/
def evaluateSpec {Pos : Type} (O : Oracle Pos) (p : Pos) : Int :=
  if O.isCheckmate p = true then -CHECKMATE_SCORE
  else if O.isStalemate p = true ∨ O.isInsufficientMaterial p = true ∨ O.canClaimDraw p = true then 0
  else if O.turn p = Color.black then
    -(((List.finRange 64).map (evalSpecTerm O p)).sum)
  else
    ((List.finRange 64).map (evalSpecTerm O p)).sum

lemma foldl_eval_eq_sum {Pos : Type} (O : Oracle Pos) (p : Pos) :
    ∀ (l : List (Fin 64)) (a : Int),
      l.foldl (fun acc sq =>
        match O.pieceAt p sq with
        | none => acc
        | some pc =>
          match pc.color with
          | Color.white => acc + (pieceValue pc.pt + pstWhite pc.pt sq)
          | Color.black => acc - (pieceValue pc.pt + pstBlack pc.pt sq)) a
      = a + (l.map (evalSpecTerm O p)).sum := by
  intro l
  induction l with
  | nil => intro a; simp
  | cons sq rest ih =>
    intro a
    simp only [List.foldl_cons, List.map_cons, List.sum_cons, ih]
    unfold evalSpecTerm
    cases O.pieceAt p sq with
    | none => simp
    | some pc =>
      obtain ⟨pt, c⟩ := pc
      cases c with
      | white => ring
      | black => ring

/-- Claim C2: for every position, the static evaluation returns the
negative mate sentinel on checkmate, 0 on stalemate / insufficient
material / claimable draw, and otherwise the signed sum of piece base
values plus piece-square-table bonuses, negated when Black is to move. -/
theorem evaluate_matches_spec {Pos : Type} (O : Oracle Pos) (p : Pos) :
    evaluate O p = evaluateSpec O p := by
  unfold evaluate evaluateSpec
  by_cases hcm : O.isCheckmate p = true
  · simp [hcm]
  · simp only [Bool.not_eq_true] at hcm
    by_cases hdraw : O.isStalemate p = true ∨ O.isInsufficientMaterial p = true ∨ O.canClaimDraw p = true
    · rcases hdraw with h | h | h <;> simp [hcm, h]
    · push_neg at hdraw
      obtain ⟨h1, h2, h3⟩ := hdraw
      simp only [Bool.not_eq_true] at h1 h2 h3
      simp [hcm, h1, h2, h3, foldl_eval_eq_sum]

/-- The promotion term of `_move_order_key`: `PIECE_VALUES.get(move.promotion, 0)`,
subtracted from the score ("promotions are always interesting"). -/
def promoBonus (m : Move) : Int :=
  match m.promo with
  | some pt => pieceValue pt
  | none => 0

/-- Victim value in the capture branch of `_move_order_key`: the piece on
the destination square, or a pawn for en passant (destination empty). -/
def victimValue {Pos : Type} (O : Oracle Pos) (p : Pos) (m : Move) : Int :=
  match O.pieceAt p m.toSq with
  | some pc => pieceValue pc.pt
  | none => pieceValue PieceType.pawn

/-- Aggressor value in the capture branch of `_move_order_key`: the piece
on the origin square, 0 if the square is empty. -/
def aggressorValue {Pos : Type} (O : Oracle Pos) (p : Pos) (m : Move) : Int :=
  match O.pieceAt p m.fromSq with
  | some pc => pieceValue pc.pt
  | none => 0

/-- `_move_order_key` of minimax_agent.py.  Lower keys are searched first.
The non-capture branch's speculative push / is_check / pop is modelled by
reading the oracle's check flag on `play p m`; the state-threaded version
below (`keySt`) models the push/pop pair explicitly. -/
def moveOrderKey {Pos : Type} (O : Oracle Pos) (p : Pos) (m : Move) : Int :=
  (if O.isCapture p m then
    -(10 * victimValue O p m - aggressorValue O p m) - 20000
  else if O.isCheck (O.play p m) then -10000
  else 0) - promoBonus m

/-- Stable insertion of `m` into `l`: `m` goes before the first element
whose key is not strictly smaller, so elements with equal keys keep their
original relative order. -/
def insRanked {α : Type} (k : α → Int) (m : α) : List α → List α
  | [] => [m]
  | x :: xs => if k x < k m then x :: insRanked k m xs else m :: x :: xs

/-- Stable ascending sort by an integer key.  This models CPython's
`list.sort(key=...)`, which is a stable ascending sort; any stable
ascending sort computes the same list, so insertion sort is a faithful
model of the source's Timsort call. -/
def sortRanked {α : Type} (k : α → Int) : List α → List α
  | [] => []
  | x :: xs => insRanked k x (sortRanked k xs)

/-- `_ordered_moves` of minimax_agent.py: the legal moves sorted by the
move-ordering heuristic. -/
def orderedMoves {Pos : Type} (O : Oracle Pos) (p : Pos) : List Move :=
  sortRanked (moveOrderKey O p) (O.legalMoves p)

lemma insRanked_perm {α : Type} (k : α → Int) (m : α) :
    ∀ l : List α, (insRanked k m l).Perm (m :: l) := by
  intro l
  induction l with
  | nil => simp [insRanked]
  | cons x xs ih =>
    simp only [insRanked]
    split
    · exact (ih.cons x).trans (List.Perm.swap m x xs)
    · exact List.Perm.refl _

lemma sortRanked_perm {α : Type} (k : α → Int) :
    ∀ l : List α, (sortRanked k l).Perm l := by
  intro l
  induction l with
  | nil => simp [sortRanked]
  | cons x xs ih =>
    exact (insRanked_perm k x (sortRanked k xs)).trans (ih.cons x)

lemma mem_insRanked {α : Type} (k : α → Int) (m y : α) (l : List α) :
    y ∈ insRanked k m l ↔ y = m ∨ y ∈ l := by
  rw [(insRanked_perm k m l).mem_iff, List.mem_cons]

lemma insRanked_pairwise {α : Type} (k : α → Int) (m : α) :
    ∀ l : List α, l.Pairwise (fun a b => k a ≤ k b) →
      (insRanked k m l).Pairwise (fun a b => k a ≤ k b) := by
  intro l
  induction l with
  | nil => intro _; simp [insRanked]
  | cons x xs ih =>
    intro h
    rw [List.pairwise_cons] at h
    obtain ⟨hx, hxs⟩ := h
    simp only [insRanked]
    split
    · rw [List.pairwise_cons]
      refine ⟨?_, ih hxs⟩
      intro y hy
      rcases (mem_insRanked k m y xs).mp hy with rfl | hy'
      · omega
      · exact hx y hy'
    · rw [List.pairwise_cons]
      constructor
      · intro y hy
        rcases List.mem_cons.mp hy with rfl | hy'
        · omega
        · have := hx y hy'
          omega
      · rw [List.pairwise_cons]
        exact ⟨hx, hxs⟩

lemma sortRanked_pairwise {α : Type} (k : α → Int) :
    ∀ l : List α, (sortRanked k l).Pairwise (fun a b => k a ≤ k b) := by
  intro l
  induction l with
  | nil => simp [sortRanked]
  | cons x xs ih => exact insRanked_pairwise k x _ ih

lemma filter_insRanked {α : Type} (k : α → Int) (c : Int) (m : α) :
    ∀ l : List α,
      (insRanked k m l).filter (fun x => decide (k x = c)) =
        if k m = c then m :: l.filter (fun x => decide (k x = c))
        else l.filter (fun x => decide (k x = c)) := by
  intro l
  induction l with
  | nil =>
    by_cases hm : k m = c
    · simp [insRanked, hm]
    · simp [insRanked, hm]
  | cons x xs ih =>
    simp only [insRanked]
    split
    · next hlt =>
      by_cases hm : k m = c
      · have hx : ¬ (k x = c) := by omega
        simp [List.filter_cons, hx, hm, ih]
      · by_cases hx : k x = c
        · simp [List.filter_cons, hx, hm, ih]
        · simp [List.filter_cons, hx, hm, ih]
    · next hge =>
      by_cases hm : k m = c
      · simp [List.filter_cons, hm]
      · simp [List.filter_cons, hm]

lemma filter_sortRanked {α : Type} (k : α → Int) (c : Int) :
    ∀ l : List α,
      (sortRanked k l).filter (fun x => decide (k x = c)) =
        l.filter (fun x => decide (k x = c)) := by
  intro l
  induction l with
  | nil => rfl
  | cons x xs ih =>
    simp only [sortRanked, filter_insRanked, ih, List.filter_cons]
    split <;> split <;> simp_all

lemma pieceValue_bounds (pt : PieceType) : 0 ≤ pieceValue pt ∧ pieceValue pt ≤ 900 := by
  cases pt <;> simp [pieceValue]

lemma promoBonus_bounds (m : Move) : 0 ≤ promoBonus m ∧ promoBonus m ≤ 900 := by
  unfold promoBonus
  cases m.promo with
  | none => simp
  | some pt => exact pieceValue_bounds pt

lemma victimValue_bounds {Pos : Type} (O : Oracle Pos) (p : Pos) (m : Move) :
    0 ≤ victimValue O p m ∧ victimValue O p m ≤ 900 := by
  unfold victimValue
  cases O.pieceAt p m.toSq with
  | none => simp [pieceValue]
  | some pc => exact pieceValue_bounds pc.pt

lemma aggressorValue_bounds {Pos : Type} (O : Oracle Pos) (p : Pos) (m : Move) :
    0 ≤ aggressorValue O p m ∧ aggressorValue O p m ≤ 900 := by
  unfold aggressorValue
  cases O.pieceAt p m.fromSq with
  | none => simp
  | some pc => exact pieceValue_bounds pc.pt

/-- Rank class of a move under the spec's ordering description:
0 = capture, 1 = non-capture move delivering check, 2 = everything else. -/
def moveClass {Pos : Type} (O : Oracle Pos) (p : Pos) (m : Move) : Nat :=
  if O.isCapture p m then 0
  else if O.isCheck (O.play p m) then 1
  else 2

lemma moveClass_mono_of_key_le {Pos : Type} (O : Oracle Pos) (p : Pos) (a b : Move)
    (h : moveOrderKey O p a ≤ moveOrderKey O p b) : moveClass O p a ≤ moveClass O p b := by
  obtain ⟨hpa1, hpa2⟩ := promoBonus_bounds a
  obtain ⟨hpb1, hpb2⟩ := promoBonus_bounds b
  obtain ⟨hvb1, hvb2⟩ := victimValue_bounds O p b
  obtain ⟨hab1, hab2⟩ := aggressorValue_bounds O p b
  by_cases ca : O.isCapture p a = true
  · simp [moveClass, ca]
  · by_cases cb : O.isCapture p b = true
    · exfalso
      simp only [moveOrderKey, ca, cb, if_true, if_false, Bool.false_eq_true] at h
      by_cases ka : O.isCheck (O.play p a) = true <;>
        simp only [ka, if_true, if_false, Bool.false_eq_true] at h <;> omega
    · by_cases ka : O.isCheck (O.play p a) = true
      · by_cases kb : O.isCheck (O.play p b) = true
        · simp [moveClass, ca, cb, ka, kb]
        · simp [moveClass, ca, cb, ka, kb]
      · by_cases kb : O.isCheck (O.play p b) = true
        · exfalso
          simp only [moveOrderKey, ca, cb, ka, kb, if_true, if_false,
            Bool.false_eq_true] at h
          omega
        · simp [moveClass, ca, cb, ka, kb]

/-- Claim C6: the move orderer returns exactly the legal moves (same
multiset), sorted ascending by the heuristic key; the key is MVV-LVA for
captures, a check bonus for non-capture checking moves, plus a promotion
bonus proportional to the promoted piece's value; captures come before
non-capture checks, which come before the rest; and moves of equal key
(in particular all unranked quiet moves, key 0) keep the oracle's stable
enumeration order. -/
theorem ordered_moves_correct {Pos : Type} (O : Oracle Pos) (p : Pos) :
    (orderedMoves O p).Perm (O.legalMoves p)
    ∧ (orderedMoves O p).Pairwise (fun a b => moveOrderKey O p a ≤ moveOrderKey O p b)
    ∧ (∀ m, O.isCapture p m = true →
        moveOrderKey O p m =
          -(10 * victimValue O p m - aggressorValue O p m) - 20000 - promoBonus m)
    ∧ (∀ m, O.isCapture p m = false → O.isCheck (O.play p m) = true →
        moveOrderKey O p m = -10000 - promoBonus m)
    ∧ (∀ m, O.isCapture p m = false → O.isCheck (O.play p m) = false →
        moveOrderKey O p m = -promoBonus m)
    ∧ (orderedMoves O p).Pairwise (fun a b => moveClass O p a ≤ moveClass O p b)
    ∧ (∀ c : Int,
        (orderedMoves O p).filter (fun m => decide (moveOrderKey O p m = c)) =
          (O.legalMoves p).filter (fun m => decide (moveOrderKey O p m = c))) := by
  refine ⟨sortRanked_perm _ _, sortRanked_pairwise _ _, ?_, ?_, ?_, ?_, ?_⟩
  · intro m hc; simp [moveOrderKey, hc]
  · intro m hc hk; simp [moveOrderKey, hc, hk]
  · intro m hc hk; simp [moveOrderKey, hc, hk]
  · have hs := sortRanked_pairwise (moveOrderKey O p) (O.legalMoves p)
    exact hs.imp (fun {a b} hab => moveClass_mono_of_key_le O p a b hab)
  · intro c; exact filter_sortRanked _ c _

/-- The move loop of `_negamax` in minimax_agent.py, parametrised by the
recursive call `f` for the next shallower depth: for each move, play it,
recurse with the negated and swapped window, negate the score, track the
maximum, raise alpha, and stop on a beta cutoff. -/
def abScan {Pos : Type} (f : Pos → Int → Int → Int) (O : Oracle Pos) (b : Pos) :
    List Move → Int → Int → Int → Int
  | [], best, _, _ => best
  | m :: ms, best, alpha, beta =>
    let score := -(f (O.play b m) (-beta) (-alpha))
    let best' := max best score
    let alpha' := max alpha best'
    if beta ≤ alpha' then best' else abScan f O b ms best' alpha' beta

/-- `_negamax` of minimax_agent.py over a `Nat` remaining depth (the claims
quantify over depth ≥ 1 at the root, where Python's `depth - 1` agrees
with truncated subtraction; the `Int`-depth fuel variant below covers the
termination claim). -/
def negamaxAB {Pos : Type} (O : Oracle Pos) : Nat → Pos → Int → Int → Int
  | 0, b, _, _ => evaluate O b
  | d + 1, b, alpha, beta =>
    if O.isGameOver b then evaluate O b
    else abScan (negamaxAB O d) O b (orderedMoves O b) (-(CHECKMATE_SCORE + 1)) alpha beta

/-- The move loop of an unpruned exhaustive negamax: identical to `abScan`
but with no window and no cutoff (spec's reference point for C1). -/
def fullScan {Pos : Type} (g : Pos → Int) (O : Oracle Pos) (b : Pos) :
    List Move → Int → Int
  | [], best => best
  | m :: ms, best => fullScan g O b ms (max best (-(g (O.play b m))))

/-- Unpruned exhaustive negamax over the same move ordering (the spec's
reference semantics for claim C1). -/
def negamaxFull {Pos : Type} (O : Oracle Pos) : Nat → Pos → Int
  | 0, b => evaluate O b
  | d + 1, b =>
    if O.isGameOver b then evaluate O b
    else fullScan (negamaxFull O d) O b (orderedMoves O b) (-(CHECKMATE_SCORE + 1))

/-- The root loop of `_search_root` in minimax_agent.py: beta is fixed at
CHECKMATE_SCORE + 1, so each child is searched with the window
(-(CHECKMATE_SCORE + 1), -alpha); the best move, best score and alpha are
tracked exactly as in the source (no cutoff at the root). -/
def rootScanAB {Pos : Type} (f : Pos → Int → Int → Int) (O : Oracle Pos) (b : Pos) :
    List Move → Move → Int → Int → Move × Int
  | [], bm, bs, _ => (bm, bs)
  | m :: ms, bm, bs, alpha =>
    let score := -(f (O.play b m) (-(CHECKMATE_SCORE + 1)) (-alpha))
    rootScanAB f O b ms (if bs < score then m else bm) (max bs score) (max alpha score)

/-- `_search_root` of minimax_agent.py: raises ValueError when there are no
legal moves, otherwise runs the root loop starting from the first ordered
move.  The returned pair is (best_move, best_score); the source returns
only the move but computes exactly this score. -/
def searchRootAB {Pos : Type} (O : Oracle Pos) (b : Pos) (depth : Nat) :
    Except String (Move × Int) :=
  match orderedMoves O b with
  | [] => .error "No legal moves available in this position."
  | m :: ms =>
    .ok (rootScanAB (negamaxAB O (depth - 1)) O b (m :: ms) m
      (-(CHECKMATE_SCORE + 1)) (-(CHECKMATE_SCORE + 1)))

/-- The unpruned root loop: same tracking, but child scores come from the
exhaustive negamax. -/
def rootScanFull {Pos : Type} (g : Pos → Int) (O : Oracle Pos) (b : Pos) :
    List Move → Move → Int → Move × Int
  | [], bm, bs => (bm, bs)
  | m :: ms, bm, bs =>
    let score := -(g (O.play b m))
    rootScanFull g O b ms (if bs < score then m else bm) (max bs score)

/-- The unpruned exhaustive root search over the same move ordering. -/
def searchRootFull {Pos : Type} (O : Oracle Pos) (b : Pos) (depth : Nat) :
    Except String (Move × Int) :=
  match orderedMoves O b with
  | [] => .error "No legal moves available in this position."
  | m :: ms =>
    .ok (rootScanFull (negamaxFull O (depth - 1)) O b (m :: ms) m
      (-(CHECKMATE_SCORE + 1)))

lemma orderedMoves_eq_nil_iff {Pos : Type} (O : Oracle Pos) (b : Pos) :
    orderedMoves O b = [] ↔ O.legalMoves b = [] := by
  constructor
  · intro h
    have hp := sortRanked_perm (moveOrderKey O b) (O.legalMoves b)
    rw [orderedMoves] at h
    rw [h] at hp
    exact (List.perm_nil.mp hp.symm)
  · intro h
    simp [orderedMoves, h, sortRanked]

lemma pstWhite_bounds : ∀ (pt : PieceType) (sq : Fin 64),
    -50 ≤ pstWhite pt sq ∧ pstWhite pt sq ≤ 50 := by
  intro pt
  cases pt <;> decide

lemma pstBlack_bounds : ∀ (pt : PieceType) (sq : Fin 64),
    -50 ≤ pstBlack pt sq ∧ pstBlack pt sq ≤ 50 := by
  intro pt
  cases pt <;> decide

lemma evalSpecTerm_bound {Pos : Type} (O : Oracle Pos) (p : Pos) (sq : Fin 64) :
    -950 ≤ evalSpecTerm O p sq ∧ evalSpecTerm O p sq ≤ 950 := by
  unfold evalSpecTerm
  cases O.pieceAt p sq with
  | none => simp
  | some pc =>
    obtain ⟨pt, c⟩ := pc
    obtain ⟨hv1, hv2⟩ := pieceValue_bounds pt
    cases c with
    | white =>
      obtain ⟨h1, h2⟩ := pstWhite_bounds pt sq
      constructor <;> simp <;> omega
    | black =>
      obtain ⟨h1, h2⟩ := pstBlack_bounds pt sq
      constructor <;> simp <;> omega

lemma sum_terms_bound {Pos : Type} (O : Oracle Pos) (p : Pos) :
    ∀ l : List (Fin 64),
      -(950 * l.length) ≤ (l.map (evalSpecTerm O p)).sum ∧
        (l.map (evalSpecTerm O p)).sum ≤ 950 * l.length := by
  intro l
  induction l with
  | nil => simp
  | cons sq rest ih =>
    obtain ⟨h1, h2⟩ := evalSpecTerm_bound O p sq
    obtain ⟨h3, h4⟩ := ih
    simp only [List.map_cons, List.sum_cons, List.length_cons]
    constructor <;> [skip; skip] <;> push_cast <;> omega

lemma evaluate_bounds {Pos : Type} (O : Oracle Pos) (p : Pos) :
    -CHECKMATE_SCORE ≤ evaluate O p ∧ evaluate O p ≤ CHECKMATE_SCORE := by
  have hcm : CHECKMATE_SCORE = 100000 := rfl
  unfold evaluate
  by_cases h1 : O.isCheckmate p = true
  · simp only [h1, if_true]; omega
  · simp only [h1, Bool.false_eq_true, if_false]
    by_cases h2 : (O.isStalemate p || O.isInsufficientMaterial p || O.canClaimDraw p) = true
    · simp only [h2, if_true]; omega
    · simp only [h2, Bool.false_eq_true, if_false]
      rw [foldl_eval_eq_sum]
      obtain ⟨h3, h4⟩ := sum_terms_bound O p (List.finRange 64)
      rw [List.length_finRange] at h3 h4
      split <;> omega

lemma abScan_ge_best {Pos : Type} (f : Pos → Int → Int → Int) (O : Oracle Pos) (b : Pos) :
    ∀ (ms : List Move) (best alpha beta : Int), best ≤ abScan f O b ms best alpha beta := by
  intro ms
  induction ms with
  | nil => intro best alpha beta; simp [abScan]
  | cons m ms ih =>
    intro best alpha beta
    simp only [abScan]
    split
    · exact le_max_left _ _
    · exact le_trans (le_max_left _ _) (ih _ _ _)

lemma abScan_le_cm {Pos : Type} (f : Pos → Int → Int → Int) (O : Oracle Pos) (b : Pos)
    (hf : ∀ p a2 b2, -CHECKMATE_SCORE ≤ f p a2 b2) :
    ∀ (ms : List Move) (best alpha beta : Int), best ≤ CHECKMATE_SCORE →
      abScan f O b ms best alpha beta ≤ CHECKMATE_SCORE := by
  intro ms
  induction ms with
  | nil => intro best alpha beta h; simpa [abScan] using h
  | cons m ms ih =>
    intro best alpha beta h
    have hs := hf (O.play b m) (-beta) (-alpha)
    simp only [abScan]
    split
    · omega
    · exact ih _ _ _ (by omega)

lemma abScan_ge_negcm {Pos : Type} (f : Pos → Int → Int → Int) (O : Oracle Pos) (b : Pos)
    (hf : ∀ p a2 b2, f p a2 b2 ≤ CHECKMATE_SCORE) :
    ∀ (m : Move) (ms : List Move) (best alpha beta : Int),
      -CHECKMATE_SCORE ≤ abScan f O b (m :: ms) best alpha beta := by
  intro m ms best alpha beta
  have hs := hf (O.play b m) (-beta) (-alpha)
  simp only [abScan]
  split
  · omega
  · have := abScan_ge_best f O b ms (max best (-(f (O.play b m) (-beta) (-alpha))))
      (max alpha (max best (-(f (O.play b m) (-beta) (-alpha))))) beta
    omega

lemma orderedMoves_nonempty {Pos : Type} (O : Oracle Pos)
    (hwf : ∀ p, O.legalMoves p = [] → O.isGameOver p = true)
    (b : Pos) (hb : ¬ O.isGameOver b = true) : orderedMoves O b ≠ [] := by
  intro h
  exact hb (hwf b ((orderedMoves_eq_nil_iff O b).mp h))

lemma negamaxAB_bounds {Pos : Type} (O : Oracle Pos)
    (hwf : ∀ p, O.legalMoves p = [] → O.isGameOver p = true) :
    ∀ (d : Nat) (b : Pos) (a2 b2 : Int),
      -CHECKMATE_SCORE ≤ negamaxAB O d b a2 b2 ∧ negamaxAB O d b a2 b2 ≤ CHECKMATE_SCORE := by
  intro d
  induction d with
  | zero => intro b a2 b2; exact evaluate_bounds O b
  | succ d ih =>
    intro b a2 b2
    simp only [negamaxAB]
    by_cases hgo : O.isGameOver b = true
    · simp only [hgo, if_true]; exact evaluate_bounds O b
    · simp only [hgo, Bool.false_eq_true, if_false]
      have hne := orderedMoves_nonempty O hwf b hgo
      have hcm : CHECKMATE_SCORE = 100000 := rfl
      cases hmoves : orderedMoves O b with
      | nil => exact absurd hmoves hne
      | cons m ms =>
        constructor
        · exact abScan_ge_negcm (negamaxAB O d) O b
            (fun p a' b' => (ih p a' b').2) m ms _ _ _
        · exact abScan_le_cm (negamaxAB O d) O b
            (fun p a' b' => (ih p a' b').1) _ _ _ _ (by omega)

lemma fullScan_ge_best {Pos : Type} (g : Pos → Int) (O : Oracle Pos) (b : Pos) :
    ∀ (ms : List Move) (best : Int), best ≤ fullScan g O b ms best := by
  intro ms
  induction ms with
  | nil => intro best; simp [fullScan]
  | cons m ms ih =>
    intro best
    simp only [fullScan]
    exact le_trans (le_max_left _ _) (ih _)

/-- Fail-soft invariant of the alpha-beta move loop against the exhaustive
loop: below alpha the pruned result is an upper bound on the true value, at
or above beta it is a lower bound, and strictly inside the window it is
exact. -/
lemma abScan_vs_fullScan {Pos : Type} (O : Oracle Pos) (b : Pos)
    (f : Pos → Int → Int → Int) (g : Pos → Int)
    (hfg : ∀ p a2 b2, -(CHECKMATE_SCORE + 1) ≤ a2 → b2 ≤ CHECKMATE_SCORE + 1 → a2 < b2 →
      (f p a2 b2 ≤ a2 → g p ≤ f p a2 b2) ∧
      (b2 ≤ f p a2 b2 → f p a2 b2 ≤ g p) ∧
      (a2 < f p a2 b2 → f p a2 b2 < b2 → f p a2 b2 = g p))
    (alpha0 beta : Int)
    (h5 : -(CHECKMATE_SCORE + 1) ≤ alpha0) (h6 : beta ≤ CHECKMATE_SCORE + 1) :
    ∀ (ms : List Move) (bp fv ar : Int),
      ar = max alpha0 bp → fv ≤ bp → (alpha0 < bp → bp = fv) → ar < beta →
      (abScan f O b ms bp ar beta ≤ alpha0 →
        fullScan g O b ms fv ≤ abScan f O b ms bp ar beta) ∧
      (beta ≤ abScan f O b ms bp ar beta →
        abScan f O b ms bp ar beta ≤ fullScan g O b ms fv) ∧
      (alpha0 < abScan f O b ms bp ar beta → abScan f O b ms bp ar beta < beta →
        abScan f O b ms bp ar beta = fullScan g O b ms fv) := by
  intro ms
  induction ms with
  | nil =>
    intro bp fv ar h1 h2 h3 h4
    simp only [abScan, fullScan]
    exact ⟨fun _ => h2, fun hb => absurd hb (by omega), fun ha _ => h3 (by omega)⟩
  | cons m ms ih =>
    intro bp fv ar h1 h2 h3 h4
    simp only [abScan, fullScan]
    obtain ⟨c1, c2, c3⟩ := hfg (O.play b m) (-beta) (-ar) (by omega) (by omega) (by omega)
    by_cases hcut : beta ≤ max ar (max bp (-(f (O.play b m) (-beta) (-ar))))
    · rw [if_pos hcut]
      have hbeta_s : beta ≤ -(f (O.play b m) (-beta) (-ar)) := by omega
      have hst : -(f (O.play b m) (-beta) (-ar)) ≤ -(g (O.play b m)) := by
        have := c1 (by omega); omega
      have hfs := fullScan_ge_best g O b ms (max fv (-(g (O.play b m))))
      refine ⟨fun hle => absurd hle (by omega), fun _ => by omega, fun _ hlt => absurd hlt (by omega)⟩
    · rw [if_neg hcut]
      push_neg at hcut
      by_cases hsar : -(f (O.play b m) (-beta) (-ar)) ≤ ar
      · have hts : -(g (O.play b m)) ≤ -(f (O.play b m) (-beta) (-ar)) := by
          have := c2 (by omega); omega
        refine ih _ _ _ (by omega) (by omega) ?_ (by omega)
        intro hgt
        by_cases hsbp : -(f (O.play b m) (-beta) (-ar)) ≤ bp
        · have hbpfv := h3 (by omega); omega
        · omega
      · push_neg at hsar
        have hst : -(f (O.play b m) (-beta) (-ar)) = -(g (O.play b m)) := by
          have := c3 (by omega) (by omega); omega
        refine ih _ _ _ (by omega) (by omega) ?_ (by omega)
        intro _; omega

/-- Fail-soft correctness of `_negamax` against the exhaustive negamax. -/
lemma negamax_failsoft {Pos : Type} (O : Oracle Pos) :
    ∀ (d : Nat) (b : Pos) (a2 b2 : Int),
      -(CHECKMATE_SCORE + 1) ≤ a2 → b2 ≤ CHECKMATE_SCORE + 1 → a2 < b2 →
      (negamaxAB O d b a2 b2 ≤ a2 → negamaxFull O d b ≤ negamaxAB O d b a2 b2) ∧
      (b2 ≤ negamaxAB O d b a2 b2 → negamaxAB O d b a2 b2 ≤ negamaxFull O d b) ∧
      (a2 < negamaxAB O d b a2 b2 → negamaxAB O d b a2 b2 < b2 →
        negamaxAB O d b a2 b2 = negamaxFull O d b) := by
  intro d
  induction d with
  | zero =>
    intro b a2 b2 _ _ _
    exact ⟨fun _ => le_refl _, fun _ => le_refl _, fun _ _ => rfl⟩
  | succ d ih =>
    intro b a2 b2 h5 h6 hab
    simp only [negamaxAB, negamaxFull]
    by_cases hgo : O.isGameOver b = true
    · rw [if_pos hgo, if_pos hgo]
      exact ⟨fun _ => le_refl _, fun _ => le_refl _, fun _ _ => rfl⟩
    · simp only [hgo, Bool.false_eq_true, if_false]
      exact abScan_vs_fullScan O b _ _ (fun p a' b' ha' hb' hab' => ih p a' b' ha' hb' hab')
        a2 b2 h5 h6 (orderedMoves O b) _ _ _ (by omega) (le_refl _) (fun _ => rfl) hab

/-- At the root the running alpha always equals the best score, every
child score that beats it comes back exact, and every child score at or
below it also bounds the true score from above, so the pruned and
unpruned root loops track identical state. -/
lemma rootScan_agree {Pos : Type} (O : Oracle Pos)
    (hwf : ∀ p, O.legalMoves p = [] → O.isGameOver p = true) (d : Nat) (b : Pos) :
    ∀ (ms : List Move) (bm : Move) (bs : Int),
      -(CHECKMATE_SCORE + 1) ≤ bs → bs ≤ CHECKMATE_SCORE →
      rootScanAB (negamaxAB O d) O b ms bm bs bs =
        rootScanFull (negamaxFull O d) O b ms bm bs := by
  intro ms
  induction ms with
  | nil => intro bm bs _ _; rfl
  | cons m ms ih =>
    intro bm bs hlo hhi
    simp only [rootScanAB, rootScanFull]
    have hcm : CHECKMATE_SCORE = 100000 := rfl
    obtain ⟨hb1, hb2⟩ := negamaxAB_bounds O hwf d (O.play b m) (-(CHECKMATE_SCORE + 1)) (-bs)
    obtain ⟨c1, c2, c3⟩ := negamax_failsoft O d (O.play b m) (-(CHECKMATE_SCORE + 1)) (-bs)
      (le_refl _) (by omega) (by omega)
    by_cases hs : -(negamaxAB O d (O.play b m) (-(CHECKMATE_SCORE + 1)) (-bs)) ≤ bs
    · have hts : -(negamaxFull O d (O.play b m)) ≤
          -(negamaxAB O d (O.play b m) (-(CHECKMATE_SCORE + 1)) (-bs)) := by
        have := c2 (by omega); omega
      rw [if_neg (by omega), if_neg (by omega),
        show max bs (-(negamaxAB O d (O.play b m) (-(CHECKMATE_SCORE + 1)) (-bs))) = bs from by omega,
        show max bs (-(negamaxFull O d (O.play b m))) = bs from by omega]
      exact ih bm bs hlo hhi
    · push_neg at hs
      have heq : negamaxAB O d (O.play b m) (-(CHECKMATE_SCORE + 1)) (-bs) =
          negamaxFull O d (O.play b m) := c3 (by omega) (by omega)
      rw [if_pos (by omega), if_pos (by omega),
        show max bs (-(negamaxFull O d (O.play b m))) =
          max bs (-(negamaxAB O d (O.play b m) (-(CHECKMATE_SCORE + 1)) (-bs))) from by omega]
      exact ih m (max bs (-(negamaxAB O d (O.play b m) (-(CHECKMATE_SCORE + 1)) (-bs))))
        (by omega) (by omega)

/-- Claim C1: for every position and fixed depth ≥ 1, the pruned root
search returns exactly the move and score of the unpruned exhaustive
negamax over the same move ordering — beta cutoffs never change the
result.  The well-formedness hypothesis is the chess fact that a position
with no legal moves is game-over (checkmate or stalemate). -/
theorem pruned_root_search_equals_unpruned {Pos : Type} (O : Oracle Pos)
    (hwf : ∀ p, O.legalMoves p = [] → O.isGameOver p = true)
    (b : Pos) (depth : Nat) (hd : 1 ≤ depth) :
    searchRootAB O b depth = searchRootFull O b depth := by
  unfold searchRootAB searchRootFull
  cases hmoves : orderedMoves O b with
  | nil => rfl
  | cons m ms =>
    exact congrArg Except.ok (rootScan_agree O hwf (depth - 1) b (m :: ms) m
      (-(CHECKMATE_SCORE + 1)) (le_refl _)
      (by have hcm : CHECKMATE_SCORE = 100000 := rfl; omega))

lemma rootScanAB_mem {Pos : Type} (f : Pos → Int → Int → Int) (O : Oracle Pos) (b : Pos) :
    ∀ (ms : List Move) (bm : Move) (bs alpha : Int),
      (rootScanAB f O b ms bm bs alpha).1 = bm ∨ (rootScanAB f O b ms bm bs alpha).1 ∈ ms := by
  intro ms
  induction ms with
  | nil => intro bm bs alpha; exact Or.inl rfl
  | cons m ms ih =>
    intro bm bs alpha
    simp only [rootScanAB]
    rcases ih (if bs < -(f (O.play b m) (-(CHECKMATE_SCORE + 1)) (-alpha)) then m else bm)
      (max bs (-(f (O.play b m) (-(CHECKMATE_SCORE + 1)) (-alpha))))
      (max alpha (-(f (O.play b m) (-(CHECKMATE_SCORE + 1)) (-alpha)))) with h | h
    · rw [h]
      split
      · exact Or.inr (List.mem_cons_self _ _)
      · exact Or.inl rfl
    · exact Or.inr (List.mem_cons_of_mem _ h)

/-- Instrumentation for claim C7: identical state tracking to `rootScanAB`,
plus a counter incremented once per loop iteration, i.e. once per
`_negamax` invocation made by `_search_root`. -/
def rootScanCount {Pos : Type} (f : Pos → Int → Int → Int) (O : Oracle Pos) (b : Pos) :
    List Move → Move → Int → Int → Nat → (Move × Int) × Nat
  | [], bm, bs, _, n => ((bm, bs), n)
  | m :: ms, bm, bs, alpha, n =>
    let score := -(f (O.play b m) (-(CHECKMATE_SCORE + 1)) (-alpha))
    rootScanCount f O b ms (if bs < score then m else bm) (max bs score)
      (max alpha score) (n + 1)

/-- Number of `_negamax` calls performed by `_search_root` (0 when it
raises instead). -/
def searchRootCalls {Pos : Type} (O : Oracle Pos) (b : Pos) (depth : Nat) : Nat :=
  match orderedMoves O b with
  | [] => 0
  | m :: ms =>
    (rootScanCount (negamaxAB O (depth - 1)) O b (m :: ms) m
      (-(CHECKMATE_SCORE + 1)) (-(CHECKMATE_SCORE + 1)) 0).2

lemma rootScanCount_eq {Pos : Type} (f : Pos → Int → Int → Int) (O : Oracle Pos) (b : Pos) :
    ∀ (ms : List Move) (bm : Move) (bs alpha : Int) (n : Nat),
      rootScanCount f O b ms bm bs alpha n =
        (rootScanAB f O b ms bm bs alpha, n + ms.length) := by
  intro ms
  induction ms with
  | nil => intro bm bs alpha n; rfl
  | cons m ms ih =>
    intro bm bs alpha n
    simp only [rootScanCount, rootScanAB, ih, List.length_cons]
    congr 1
    omega

/-- The move loop of `_negamax` in the fuel-indexed model (claim C10). -/
def abScanFuel {Pos : Type} (f : Pos → Int → Int → Option Int) (O : Oracle Pos) (b : Pos) :
    List Move → Int → Int → Int → Option Int
  | [], best, _, _ => some best
  | m :: ms, best, alpha, beta =>
    match f (O.play b m) (-beta) (-alpha) with
    | none => none
    | some cs =>
      let score := -cs
      let best' := max best score
      let alpha' := max alpha best'
      if beta ≤ alpha' then some best' else abScanFuel f O b ms best' alpha' beta

/-- `_negamax` with Python's exact signed integer depth and bottoming test
`depth == 0 or board.is_game_over()`, indexed by recursion fuel: `none`
means the recursion is still running after `fuel` nested calls.  Claim C10
shows fuel `depth + 1` always suffices when `depth ≥ 0`. -/
def negamaxFuel {Pos : Type} (O : Oracle Pos) : Nat → Pos → Int → Int → Int → Option Int
  | 0, _, _, _, _ => none
  | fuel + 1, b, depth, alpha, beta =>
    if depth = 0 ∨ O.isGameOver b = true then some (evaluate O b)
    else abScanFuel (fun p a2 b2 => negamaxFuel O fuel p (depth - 1) a2 b2) O b
      (orderedMoves O b) (-(CHECKMATE_SCORE + 1)) alpha beta

/-- The root loop of `_search_root` over the fuel-indexed negamax. -/
def rootScanFuel {Pos : Type} (f : Pos → Int → Int → Option Int) (O : Oracle Pos) (b : Pos) :
    List Move → Move → Int → Int → Option (Move × Int)
  | [], bm, bs, _ => some (bm, bs)
  | m :: ms, bm, bs, alpha =>
    match f (O.play b m) (-(CHECKMATE_SCORE + 1)) (-alpha) with
    | none => none
    | some cs =>
      let score := -cs
      rootScanFuel f O b ms (if bs < score then m else bm) (max bs score) (max alpha score)

/-- `_search_root` over the fuel-indexed negamax with Python's Int depth. -/
def searchRootFuel {Pos : Type} (O : Oracle Pos) (fuel : Nat) (b : Pos) (depth : Int) :
    Except String (Move × Int) :=
  match orderedMoves O b with
  | [] => .error "No legal moves available in this position."
  | m :: ms =>
    match rootScanFuel (fun p a2 b2 => negamaxFuel O fuel p (depth - 1) a2 b2) O b
        (m :: ms) m (-(CHECKMATE_SCORE + 1)) (-(CHECKMATE_SCORE + 1)) with
    | none => .error "recursion did not terminate within the given fuel"
    | some r => .ok r

lemma abScanFuel_congr {Pos : Type} (f : Pos → Int → Int → Option Int)
    (fp : Pos → Int → Int → Int) (O : Oracle Pos) (b : Pos)
    (hf : ∀ p a2 b2, f p a2 b2 = some (fp p a2 b2)) :
    ∀ (ms : List Move) (best alpha beta : Int),
      abScanFuel f O b ms best alpha beta = some (abScan fp O b ms best alpha beta) := by
  intro ms
  induction ms with
  | nil => intro best alpha beta; rfl
  | cons m ms ih =>
    intro best alpha beta
    simp only [abScanFuel, abScan, hf]
    split
    · rfl
    · exact ih _ _ _

lemma rootScanFuel_congr {Pos : Type} (f : Pos → Int → Int → Option Int)
    (fp : Pos → Int → Int → Int) (O : Oracle Pos) (b : Pos)
    (hf : ∀ p a2 b2, f p a2 b2 = some (fp p a2 b2)) :
    ∀ (ms : List Move) (bm : Move) (bs alpha : Int),
      rootScanFuel f O b ms bm bs alpha = some (rootScanAB fp O b ms bm bs alpha) := by
  intro ms
  induction ms with
  | nil => intro bm bs alpha; rfl
  | cons m ms ih =>
    intro bm bs alpha
    simp only [rootScanFuel, rootScanAB, hf]
    exact ih _ _ _

lemma negamaxFuel_eq {Pos : Type} (O : Oracle Pos) :
    ∀ (fuel : Nat) (d : Int), 0 ≤ d → d.toNat < fuel →
      ∀ (b : Pos) (a2 b2 : Int),
        negamaxFuel O fuel b d a2 b2 = some (negamaxAB O d.toNat b a2 b2) := by
  intro fuel
  induction fuel with
  | zero => intro d hd hlt; exact absurd hlt (by omega)
  | succ fuel ih =>
    intro d hd hlt b a2 b2
    by_cases hd0 : d = 0
    · subst hd0
      simp only [negamaxFuel, if_pos (Or.inl rfl)]
      rfl
    · by_cases hgo : O.isGameOver b = true
      · simp only [negamaxFuel, if_pos (Or.inr hgo)]
        have hsucc : d.toNat = (d.toNat - 1) + 1 := by omega
        rw [hsucc]
        simp only [negamaxAB, if_pos hgo]
      · simp only [negamaxFuel]
        rw [if_neg (by simp [hd0, hgo])]
        have hsucc : d.toNat = (d - 1).toNat + 1 := by omega
        rw [hsucc]
        simp only [negamaxAB]
        rw [if_neg hgo]
        exact abScanFuel_congr _ _ O b
          (fun p a' b' => ih (d - 1) (by omega) (by omega) p a' b') _ _ _ _

/-- Claim C10: for every depth ≥ 0 the Python recursion terminates — fuel
`depth.toNat + 1` (indeed any fuel above depth) suffices, each recursive
call decreasing the remaining depth by exactly one, and the result agrees
with the structurally recursive Nat-depth embedding; consequently
`_search_root` terminates for every depth ≥ 1. -/
theorem negamax_terminates_on_nonneg_depth {Pos : Type} (O : Oracle Pos) (d : Int)
    (hd : 0 ≤ d) :
    (∀ (fuel : Nat), d.toNat < fuel →
      ∀ (b : Pos) (alpha beta : Int),
        negamaxFuel O fuel b d alpha beta = some (negamaxAB O d.toNat b alpha beta))
    ∧ (1 ≤ d → ∀ (fuel : Nat) (b : Pos), (d - 1).toNat < fuel →
        searchRootFuel O fuel b d = searchRootAB O b d.toNat) := by
  constructor
  · intro fuel hlt b a2 b2
    exact negamaxFuel_eq O fuel d hd hlt b a2 b2
  · intro hd1 fuel b hlt
    unfold searchRootFuel searchRootAB
    have hdt : (d - 1).toNat = d.toNat - 1 := by omega
    cases orderedMoves O b with
    | nil => rfl
    | cons m ms =>
      have hrs := rootScanFuel_congr (fun p a2 b2 => negamaxFuel O fuel p (d - 1) a2 b2)
        (negamaxAB O (d - 1).toNat) O b
        (fun p a' b' => negamaxFuel_eq O fuel (d - 1) (by omega) hlt p a' b') (m :: ms) m
        (-(CHECKMATE_SCORE + 1)) (-(CHECKMATE_SCORE + 1))
      rw [hdt] at hrs
      simp only [hrs]

/-- A node of the MCTS tree (`_MCTSNode` of mcts_agent.py): position
snapshot, the move that led to the node, owned child nodes, the
not-yet-expanded legal moves (shuffled at creation), the visit counter and
the cumulative value accumulator. -/
inductive MTree (Pos : Type) where
  | mk : Pos → Option Move → List (MTree Pos) → List Move → Nat → Rat → MTree Pos

def MTree.pos {Pos : Type} : MTree Pos → Pos
  | .mk p _ _ _ _ _ => p

def MTree.mv {Pos : Type} : MTree Pos → Option Move
  | .mk _ m _ _ _ _ => m

def MTree.children {Pos : Type} : MTree Pos → List (MTree Pos)
  | .mk _ _ ch _ _ _ => ch

def MTree.untried {Pos : Type} : MTree Pos → List Move
  | .mk _ _ _ un _ _ => un

def MTree.visits {Pos : Type} : MTree Pos → Nat
  | .mk _ _ _ _ v _ => v

def MTree.total {Pos : Type} : MTree Pos → Rat
  | .mk _ _ _ _ _ t => t

/-- Injected run parameters of one MCTS search, following the spec's design
note that randomness must be an injectable input: `sh` models
`random.shuffle` of the untried moves at node creation; `sel` models the
argmax-by-UCB1 child choice of `_select` (a function of exactly the data
UCB1 reads: the parent visit count and the children; the index is
interpreted modulo the list length, which every argmax result satisfies);
`roll` models `_rollout`'s White-perspective float result per iteration;
`rnd` models the `random.choice` index of the degenerate fallback. -/
structure MParams (Pos : Type) where
  sh : List Move → List Move
  sel : Nat → List (MTree Pos) → Nat
  roll : Nat → Pos → Rat
  rnd : Nat

/-- One backpropagation update at one node (loop body of `_backpropagate`):
increment the visit count; `board.turn` is the side to move next, so when
it is Black, White just moved and the White-perspective result is added,
otherwise it is subtracted. -/
def bump {Pos : Type} (O : Oracle Pos) (r : Rat) : MTree Pos → MTree Pos
  | .mk p mv ch un v tot =>
    .mk p mv ch un (v + 1) (if O.turn p = Color.black then tot + r else tot - r)

def childD {Pos : Type} (c : MTree Pos) (cs : List (MTree Pos)) (i : Nat) : MTree Pos :=
  (c :: cs).getD i c

lemma childD_mem {Pos : Type} (c : MTree Pos) (cs : List (MTree Pos)) (i : Nat) :
    childD c cs i ∈ c :: cs := by
  unfold childD
  by_cases h : i < (c :: cs).length
  · rw [List.getD_eq_getElem _ _ h]
    exact List.getElem_mem h
  · rw [List.getD_eq_default _ _ (by omega)]
    exact List.mem_cons_self _ _

/-- One iteration of the MCTS loop body of `_mcts_search`
(selection / expansion / rollout / backpropagation), fused into a single
recursive descent: while a node is non-terminal and fully expanded,
`_select` descends into the UCB1-argmax child (Python's `max` raises
ValueError on an empty children list, modelled by `none`); at the stopping
node, if it is non-terminal with untried moves, `_expand` pops the last
untried move, plays it on a copy and creates the child; `_rollout` produces
the iteration's White-perspective result; `_backpropagate` then updates
every node on the path back to the root, which is exactly the `bump` on
the way out of the recursion. -/
def iter1 {Pos : Type} (O : Oracle Pos) (P : MParams Pos) (it : Nat) :
    MTree Pos → Option (MTree Pos × Rat)
  | .mk p mv ch un v tot =>
    if O.isGameOver p = false ∧ un = [] then
      match ch with
      | [] => none
      | c :: cs =>
        let i := P.sel v (c :: cs) % (c :: cs).length
        match iter1 O P it (childD c cs i) with
        | none => none
        | some (c', r) =>
          some (bump O r (.mk p mv ((c :: cs).set i c') un v tot), r)
    else if O.isGameOver p = false then
      match un.getLast? with
      | none => none
      | some m =>
        let cpos := O.play p m
        let r := P.roll it cpos
        let child := bump O r (.mk cpos (some m) [] (P.sh (O.legalMoves cpos)) 0 0)
        some (bump O r (.mk p mv (ch ++ [child]) un.dropLast v tot), r)
    else
      let r := P.roll it p
      some (bump O r (.mk p mv ch un v tot), r)
termination_by t => sizeOf t
decreasing_by
  simp_wf
  refine lt_of_lt_of_le (List.sizeOf_lt_of_mem (childD_mem _ _ _)) ?_
  simp only [List.cons.sizeOf_spec]
  omega

/-- The `while time.monotonic() < deadline` loop of `_mcts_search`,
abstracted to N completed iterations (the deadline check is cooperative
and happens only between iterations). -/
def mctsLoop {Pos : Type} (O : Oracle Pos) (P : MParams Pos) (t0 : MTree Pos) :
    Nat → Option (MTree Pos)
  | 0 => some t0
  | n + 1 =>
    match mctsLoop O P t0 n with
    | none => none
    | some t =>
      match iter1 O P n t with
      | none => none
      | some (t', _) => some t'

/-- `max(root.children, key=lambda c: c.visits)`: Python's max keeps the
first element with the maximal key, i.e. replaces only on strict
improvement. -/
def bestChild {Pos : Type} (c : MTree Pos) (cs : List (MTree Pos)) : MTree Pos :=
  cs.foldl (fun best x => if best.visits < x.visits then x else best) c

lemma bestChild_mem {Pos : Type} : ∀ (cs : List (MTree Pos)) (c : MTree Pos),
    bestChild c cs ∈ c :: cs := by
  intro cs
  induction cs with
  | nil => intro c; simp [bestChild]
  | cons x cs ih =>
    intro c
    have h := ih (if c.visits < x.visits then x else c)
    simp only [bestChild] at h ⊢
    simp only [List.foldl_cons]
    rcases List.mem_cons.mp h with h1 | h1
    · rw [h1]
      split
      · exact List.mem_cons_of_mem _ (List.mem_cons_self _ _)
      · exact List.mem_cons_self _ _
    · exact List.mem_cons_of_mem _ (List.mem_cons_of_mem _ h1)

/-- `_mcts_search` of mcts_agent.py: ValueError with no legal moves;
single-move shortcut before the loop; otherwise run the loop from a fresh
root on a copy of the board, then return the most-visited root child's
move, falling back to a uniformly random legal move if no child was ever
created. -/
def mctsSearch {Pos : Type} (O : Oracle Pos) (P : MParams Pos) (b : Pos) (N : Nat) :
    Except String Move :=
  match O.legalMoves b with
  | [] => .error "No legal moves available in this position."
  | [m] => .ok m
  | m1 :: m2 :: rest =>
    match mctsLoop O P (.mk b none [] (P.sh (m1 :: m2 :: rest)) 0 0) N with
    | none => .error "max arg is an empty sequence"
    | some root' =>
      match root'.children with
      | [] =>
        .ok ((m1 :: m2 :: rest).get
          ⟨P.rnd % (m1 :: m2 :: rest).length, Nat.mod_lt _ (Nat.succ_pos _)⟩)
      | c :: cs =>
        match (bestChild c cs).mv with
        | some m => .ok m
        | none => .error "best child has no move"

/-- Sum of the visit counts of a node's children (claim C8). -/
def childVisitSum {Pos : Type} (t : MTree Pos) : Nat :=
  (t.children.map MTree.visits).sum

/-- Structural well-formedness of an MCTS tree under a chess oracle: a
non-terminal fully-expanded node has at least one child (so `_select`'s
`max` never sees an empty sequence). -/
inductive TreeInv {Pos : Type} (O : Oracle Pos) : MTree Pos → Prop where
  | mk : ∀ (p : Pos) (mv : Option Move) (ch : List (MTree Pos)) (un : List Move)
      (v : Nat) (tot : Rat),
      (O.isGameOver p = false → un = [] → ch ≠ []) →
      (∀ c ∈ ch, TreeInv O c) →
      TreeInv O (.mk p mv ch un v tot)

lemma MTree.pos_mk {Pos : Type} (p : Pos) (mv ch un v tot) :
    (MTree.mk p mv ch un v tot).pos = p := rfl

lemma MTree.mv_mk {Pos : Type} (p : Pos) (mv ch un v tot) :
    (MTree.mk p mv ch un v tot).mv = mv := rfl

lemma MTree.children_mk {Pos : Type} (p : Pos) (mv ch un v tot) :
    (MTree.mk p mv ch un v tot).children = ch := rfl

lemma MTree.untried_mk {Pos : Type} (p : Pos) (mv ch un v tot) :
    (MTree.mk p mv ch un v tot).untried = un := rfl

lemma MTree.visits_mk {Pos : Type} (p : Pos) (mv ch un v tot) :
    (MTree.mk p mv ch un v tot).visits = v := rfl

lemma bump_mk {Pos : Type} (O : Oracle Pos) (r : Rat) (p : Pos) (mv ch un v tot) :
    bump O r (.mk p mv ch un v tot) =
      .mk p mv ch un (v + 1) (if O.turn p = Color.black then tot + r else tot - r) := rfl

lemma sum_visits_set {Pos : Type} : ∀ (l : List (MTree Pos)) (i : Nat) (x d : MTree Pos),
    i < l.length →
    ((l.set i x).map MTree.visits).sum + (l.getD i d).visits
      = (l.map MTree.visits).sum + x.visits := by
  intro l
  induction l with
  | nil => intro i x d h; simp at h
  | cons a l ih =>
    intro i x d h
    cases i with
    | zero =>
      simp only [List.set_cons_zero, List.map_cons, List.sum_cons, List.getD_cons_zero]
      omega
    | succ i =>
      simp only [List.set_cons_succ, List.map_cons, List.sum_cons, List.getD_cons_succ]
      have := ih i x d (by simpa using h)
      omega

/-- What one completed MCTS iteration does to a well-formed tree: it
succeeds, preserves well-formedness, the position, and the move that led
to the node; it bumps the node's visit count by exactly one; untried moves
only shrink; every child's leading move either existed before or comes
from the untried list; a non-terminal node passes the backpropagation
through exactly one child (the children visit sum grows by one), and a
terminal node's children are untouched. -/
lemma iter1_spec {Pos : Type} (O : Oracle Pos) (P : MParams Pos)
    (hwf : ∀ p, O.legalMoves p = [] → O.isGameOver p = true)
    (hsh : ∀ l, (P.sh l).Perm l) :
    ∀ (it : Nat) (t : MTree Pos), TreeInv O t →
      ∃ t' r, iter1 O P it t = some (t', r) ∧ TreeInv O t' ∧
        t'.pos = t.pos ∧ t'.mv = t.mv ∧ t'.visits = t.visits + 1 ∧
        (∀ m ∈ t'.untried, m ∈ t.untried) ∧
        (∀ c' ∈ t'.children,
          (∃ c ∈ t.children, c'.mv = c.mv) ∨ ∃ m ∈ t.untried, c'.mv = some m) ∧
        (O.isGameOver t.pos = false → childVisitSum t' = childVisitSum t + 1) ∧
        (O.isGameOver t.pos = true → t'.children = t.children) := by
  intro it t hinv
  induction hinv with
  | mk p mv ch un v tot hne hch ih =>
    by_cases hcase : O.isGameOver p = false ∧ un = []
    · obtain ⟨hgo, hun⟩ := hcase
      subst hun
      cases ch with
      | nil => exact absurd rfl (hne hgo rfl)
      | cons c cs =>
        have hmem : childD c cs (P.sel v (c :: cs) % (c :: cs).length) ∈ c :: cs :=
          childD_mem c cs _
        obtain ⟨c', r, heq, hinv', hpos', hmv', hvis', hun', hch', hsum', hterm'⟩ :=
          ih _ hmem
        have hilt : P.sel v (c :: cs) % (c :: cs).length < (c :: cs).length :=
          Nat.mod_lt _ (Nat.succ_pos _)
        refine ⟨bump O r (.mk p mv
            ((c :: cs).set (P.sel v (c :: cs) % (c :: cs).length) c') [] v tot), r,
          ?_, ?_, rfl, rfl, rfl, fun m hm => hm, ?_, ?_, ?_⟩
        · have heq' := heq
          simp only [List.length_cons] at heq'
          simp [iter1, hgo, heq']
        · rw [bump_mk]
          refine TreeInv.mk _ _ _ _ _ _ (fun _ _ => ?_) (fun x hx => ?_)
          · apply List.ne_nil_of_length_pos
            simp [List.length_set]
          · rcases List.mem_or_eq_of_mem_set hx with hx' | rfl
            · exact hch x hx'
            · exact hinv'
        · intro x hx
          rw [bump_mk, MTree.children_mk] at hx
          rcases List.mem_or_eq_of_mem_set hx with hx' | rfl
          · exact Or.inl ⟨x, hx', rfl⟩
          · exact Or.inl ⟨childD c cs (P.sel v (c :: cs) % (c :: cs).length), hmem, hmv'⟩
        · intro _
          have hs := sum_visits_set (c :: cs) (P.sel v (c :: cs) % (c :: cs).length) c' c hilt
          simp only [childVisitSum, bump_mk, MTree.children_mk]
          have hcd : (childD c cs (P.sel v (c :: cs) % (c :: cs).length)).visits
              = ((c :: cs).getD (P.sel v (c :: cs) % (c :: cs).length) c).visits := rfl
          omega
        · intro hter
          exact absurd hter (by simp [MTree.pos_mk, hgo])
    · by_cases hgo : O.isGameOver p = false
      · have hun : un ≠ [] := fun h => hcase ⟨hgo, h⟩
        cases hlast : un.getLast? with
        | none => exact absurd (by simpa using hlast) hun
        | some m =>
          have hmun : m ∈ un := by
            obtain ⟨h1, h2⟩ := List.mem_getLast?_eq_getLast (Option.mem_def.mpr hlast)
            rw [h2]
            exact List.getLast_mem h1
          refine ⟨bump O (P.roll it (O.play p m)) (.mk p mv
              (ch ++ [bump O (P.roll it (O.play p m))
                (.mk (O.play p m) (some m) [] (P.sh (O.legalMoves (O.play p m))) 0 0)])
              un.dropLast v tot), P.roll it (O.play p m),
            ?_, ?_, rfl, rfl, rfl, ?_, ?_, ?_, ?_⟩
          · rw [iter1.eq_def]
            simp only [if_neg hcase, if_pos hgo, hlast]
          · rw [bump_mk]
            refine TreeInv.mk _ _ _ _ _ _ (fun _ _ => ?_) (fun x hx => ?_)
            · apply List.ne_nil_of_length_pos
              simp only [List.length_append, List.length_cons, List.length_nil]
              omega
            rcases List.mem_append.mp hx with hx' | hx'
            · exact hch x hx'
            · rw [List.mem_singleton] at hx'
              subst hx'
              rw [bump_mk]
              refine TreeInv.mk _ _ _ _ _ _ (fun hgoc hshnil => ?_) (by simp)
              have hleg : O.legalMoves (O.play p m) = [] := by
                have hp := hsh (O.legalMoves (O.play p m))
                rw [hshnil] at hp
                exact List.perm_nil.mp hp.symm
              exact absurd (hwf _ hleg) (by simp [hgoc])
          · intro m' hm'
            rw [bump_mk, MTree.untried_mk] at hm'
            exact (List.dropLast_sublist un).subset hm'
          · intro x hx
            rw [bump_mk, MTree.children_mk] at hx
            rcases List.mem_append.mp hx with hx' | hx'
            · exact Or.inl ⟨x, hx', rfl⟩
            · rw [List.mem_singleton] at hx'
              subst hx'
              exact Or.inr ⟨m, hmun, rfl⟩
          · intro _
            simp [childVisitSum, bump_mk, MTree.children_mk, MTree.visits_mk]
          · intro hter
            exact absurd hter (by simp [MTree.pos_mk, hgo])
      · have hgo' : O.isGameOver p = true := by
          cases h : O.isGameOver p
          · exact absurd h hgo
          · rfl
        refine ⟨bump O (P.roll it p) (.mk p mv ch un v tot), P.roll it p,
          ?_, ?_, rfl, rfl, rfl, fun m hm => hm, ?_, ?_, ?_⟩
        · rw [iter1.eq_def]
          simp only [if_neg hcase, if_neg hgo]
        · rw [bump_mk]
          exact TreeInv.mk _ _ _ _ _ _ hne hch
        · intro x hx
          rw [bump_mk, MTree.children_mk] at hx
          exact Or.inl ⟨x, hx, rfl⟩
        · intro hfalse
          exact absurd hfalse (by simp [MTree.pos_mk, hgo'])
        · intro _
          rfl

/-- Invariant of the MCTS loop: after N completed iterations from the
fresh root, the loop has succeeded, the tree is well-formed, the root
keeps position b, untried moves and children moves come from the legal
moves of b, the root has been visited exactly N times, and for a
non-terminal root the children visit counts sum to exactly N. -/
lemma mctsLoop_spec {Pos : Type} (O : Oracle Pos) (P : MParams Pos)
    (hwf : ∀ p, O.legalMoves p = [] → O.isGameOver p = true)
    (hsh : ∀ l, (P.sh l).Perm l) (b : Pos) (hne : O.legalMoves b ≠ []) :
    ∀ N : Nat, ∃ r, mctsLoop O P (.mk b none [] (P.sh (O.legalMoves b)) 0 0) N = some r ∧
      TreeInv O r ∧ r.pos = b ∧
      (∀ m ∈ r.untried, m ∈ O.legalMoves b) ∧
      (∀ c ∈ r.children, ∃ m, m ∈ O.legalMoves b ∧ c.mv = some m) ∧
      r.visits = N ∧
      (O.isGameOver b = false → childVisitSum r = N) := by
  intro N
  induction N with
  | zero =>
    refine ⟨_, rfl, ?_, rfl, ?_, ?_, rfl, fun _ => rfl⟩
    · refine TreeInv.mk _ _ _ _ _ _ (fun _ hshl => ?_) (by simp)
      have hp := hsh (O.legalMoves b)
      rw [hshl] at hp
      exact absurd (List.perm_nil.mp hp.symm) hne
    · intro m hm
      rw [MTree.untried_mk] at hm
      exact (hsh (O.legalMoves b)).subset hm
    · intro c hc
      rw [MTree.children_mk] at hc
      exact absurd hc (List.not_mem_nil c)
  | succ N ihN =>
    obtain ⟨r, hr, hinv, hpos, hun, hch, hvis, hsum⟩ := ihN
    obtain ⟨r', rr, heq, hinv', hpos', _, hvis', hun', hch', hsum', _⟩ :=
      iter1_spec O P hwf hsh N r hinv
    refine ⟨r', ?_, hinv', by rw [hpos', hpos], ?_, ?_, by omega, ?_⟩
    · simp only [mctsLoop, hr, heq]
    · intro m hm
      exact hun m (hun' m hm)
    · intro c' hc'
      rcases hch' c' hc' with ⟨c, hc, hcm⟩ | ⟨m, hm, hcm⟩
      · obtain ⟨m, hm, hcmv⟩ := hch c hc
        exact ⟨m, hm, by rw [hcm, hcmv]⟩
      · exact ⟨m, hun m hm, hcm⟩
    · intro hgo
      have h1 := hsum' (by rw [hpos]; exact hgo)
      have h2 := hsum hgo
      omega

/-- When legal moves exist, `_mcts_search` returns a legal move through
every result path (single-move shortcut, most-visited child, random
fallback). -/
lemma mctsSearch_ok {Pos : Type} (O : Oracle Pos) (P : MParams Pos)
    (hwf : ∀ p, O.legalMoves p = [] → O.isGameOver p = true)
    (hsh : ∀ l, (P.sh l).Perm l) (b : Pos) (N : Nat) (hne : O.legalMoves b ≠ []) :
    ∃ m, mctsSearch O P b N = .ok m ∧ m ∈ O.legalMoves b := by
  obtain ⟨r, hr, _, _, _, hch, _, _⟩ := mctsLoop_spec O P hwf hsh b hne N
  cases hl : O.legalMoves b with
  | nil => exact absurd hl hne
  | cons m1 tl =>
    cases tl with
    | nil =>
      refine ⟨m1, ?_, List.mem_cons_self _ _⟩
      simp [mctsSearch, hl]
    | cons m2 rest =>
      rw [hl] at hr hch
      cases hrc : r.children with
      | nil =>
        refine ⟨(m1 :: m2 :: rest).get
          ⟨P.rnd % (m1 :: m2 :: rest).length, Nat.mod_lt _ (Nat.succ_pos _)⟩,
          ?_, List.get_mem _ _ _⟩
        unfold mctsSearch
        rw [hl]
        simp only [hr, hrc]
      | cons c cs =>
        have hb := bestChild_mem cs c
        rw [← hrc] at hb
        obtain ⟨m, hm, hmv⟩ := hch _ hb
        refine ⟨m, ?_, hm⟩
        unfold mctsSearch
        rw [hl]
        simp only [hr, hrc, hmv]

/-- Claim C3: for every position with at least one legal move, both the
alpha-beta root search and the MCTS search return a member of the
position's legal-move set, through every MCTS result path. -/
theorem engines_return_legal_moves {Pos : Type} (O : Oracle Pos) (P : MParams Pos)
    (hwf : ∀ p, O.legalMoves p = [] → O.isGameOver p = true)
    (hsh : ∀ l, (P.sh l).Perm l) (b : Pos) (N depth : Nat)
    (hne : O.legalMoves b ≠ []) :
    (∀ m s, searchRootAB O b depth = .ok (m, s) → m ∈ O.legalMoves b)
    ∧ (∀ m, mctsSearch O P b N = .ok m → m ∈ O.legalMoves b) := by
  constructor
  · intro m s hok
    unfold searchRootAB at hok
    cases hm : orderedMoves O b with
    | nil => rw [hm] at hok; exact Except.noConfusion hok
    | cons m0 ms =>
      rw [hm] at hok
      have hinj : (rootScanAB (negamaxAB O (depth - 1)) O b (m0 :: ms) m0
          (-(CHECKMATE_SCORE + 1)) (-(CHECKMATE_SCORE + 1))).1 = m := by
        have := Except.ok.inj hok
        rw [this]
      have hmem : m ∈ m0 :: ms := by
        rcases rootScanAB_mem (negamaxAB O (depth - 1)) O b (m0 :: ms) m0
          (-(CHECKMATE_SCORE + 1)) (-(CHECKMATE_SCORE + 1)) with h | h
        · rw [hinj] at h; rw [h]; exact List.mem_cons_self _ _
        · rw [hinj] at h; exact h
      have hperm := sortRanked_perm (moveOrderKey O b) (O.legalMoves b)
      rw [orderedMoves] at hm
      rw [hm] at hperm
      exact hperm.subset hmem
  · intro m hok
    obtain ⟨m', hok', hmem'⟩ := mctsSearch_ok O P hwf hsh b N hne
    rw [hok'] at hok
    rw [← Except.ok.inj hok]
    exact hmem'

/-- Claim C4: move selection raises exactly on positions with zero legal
moves — both engines error iff the legal-move list is empty, and with at
least one legal move the MCTS search never raises (the degenerate
no-children case falls back to a random legal move instead). -/
theorem raises_iff_no_legal_moves {Pos : Type} (O : Oracle Pos) (P : MParams Pos)
    (hwf : ∀ p, O.legalMoves p = [] → O.isGameOver p = true)
    (hsh : ∀ l, (P.sh l).Perm l) (b : Pos) (N depth : Nat) :
    ((∃ e, searchRootAB O b depth = .error e) ↔ O.legalMoves b = [])
    ∧ ((∃ e, mctsSearch O P b N = .error e) ↔ O.legalMoves b = []) := by
  constructor
  · constructor
    · rintro ⟨e, he⟩
      by_contra hne
      have hom : orderedMoves O b ≠ [] :=
        fun h => hne ((orderedMoves_eq_nil_iff O b).mp h)
      unfold searchRootAB at he
      cases hm : orderedMoves O b with
      | nil => exact hom hm
      | cons m0 ms => rw [hm] at he; exact Except.noConfusion he
    · intro h
      refine ⟨"No legal moves available in this position.", ?_⟩
      unfold searchRootAB
      rw [(orderedMoves_eq_nil_iff O b).mpr h]
  · constructor
    · rintro ⟨e, he⟩
      by_contra hne
      obtain ⟨m, hok, _⟩ := mctsSearch_ok O P hwf hsh b N hne
      rw [hok] at he
      exact Except.noConfusion he
    · intro h
      refine ⟨"No legal moves available in this position.", ?_⟩
      unfold mctsSearch
      rw [h]

/-- Amended claim C8: for a root position that is NOT game-over and has at
least two legal moves, after N completed iterations the root's visit count
is N and the children's visit counts sum to N.  (The non-terminal
hypothesis is the amendment: a game-over root with legal moves — e.g.
insufficient material with both kings and a knight still able to move — is
never expanded, so its children visit sum stays 0.) -/
theorem visit_accounting_amended {Pos : Type} (O : Oracle Pos) (P : MParams Pos)
    (hwf : ∀ p, O.legalMoves p = [] → O.isGameOver p = true)
    (hsh : ∀ l, (P.sh l).Perm l) (b : Pos)
    (h2 : 2 ≤ (O.legalMoves b).length) (hnt : O.isGameOver b = false) (N : Nat) :
    ∃ r, mctsLoop O P (.mk b none [] (P.sh (O.legalMoves b)) 0 0) N = some r ∧
      r.visits = N ∧ childVisitSum r = N := by
  have hne : O.legalMoves b ≠ [] := by
    intro h
    rw [h] at h2
    simp at h2
  obtain ⟨r, hr, _, _, _, _, hvis, hsum⟩ := mctsLoop_spec O P hwf hsh b hne N
  exact ⟨r, hr, hvis, hsum hnt⟩

/-- A node on a backpropagation path, carrying exactly the data
`_backpropagate` reads and writes: the side to move of the node's board,
the visit counter and the value accumulator. -/
structure BPNode where
  turn : Color
  visits : Nat
  total : Rat
deriving DecidableEq, Repr

/-- `_backpropagate` of mcts_agent.py along the parent chain from the
simulated node up to the root: each node's visit count is incremented;
`board.turn` is the side to move next, so when it is Black, White just
moved and the White-perspective rollout result is added, otherwise it is
subtracted. -/
def backpropagate : List BPNode → Rat → List BPNode
  | [], _ => []
  | n :: rest, r =>
    { turn := n.turn, visits := n.visits + 1,
      total := if n.turn = Color.black then n.total + r else n.total - r }
      :: backpropagate rest r

/-- The update as the spec sentence words it: the result is added as-is
when the node was reached by a Black move (Black just moved, so White is
to move next), and subtracted when reached by a White move. -/
def backpropagateClaim : List BPNode → Rat → List BPNode
  | [], _ => []
  | n :: rest, r =>
    { turn := n.turn, visits := n.visits + 1,
      total := if n.turn = Color.white then n.total + r else n.total - r }
      :: backpropagateClaim rest r

/-- Counterexample to claim C5 as stated: a node whose board has Black to
move was reached by a White move; the code adds the result there
(total becomes +1), while the claim's sign rule subtracts it (total -1). -/
theorem backprop_sign_counterexample :
    backpropagate [⟨Color.black, 0, 0⟩] 1 = [⟨Color.black, 1, 1⟩]
    ∧ backpropagateClaim [⟨Color.black, 0, 0⟩] 1 = [⟨Color.black, 1, -1⟩]
    ∧ backpropagate [⟨Color.black, 0, 0⟩] 1 ≠ backpropagateClaim [⟨Color.black, 0, 0⟩] 1 := by
  have h1 : backpropagate [⟨Color.black, 0, 0⟩] 1 = [⟨Color.black, 1, 1⟩] := by
    simp [backpropagate]
  have h2 : backpropagateClaim [⟨Color.black, 0, 0⟩] 1 = [⟨Color.black, 1, -1⟩] := by
    simp [backpropagateClaim]
  refine ⟨h1, h2, ?_⟩
  rw [h1, h2]
  intro h
  norm_num at h

/-- Amended claim C5: during backpropagation every node on the path from
the simulated node to the root has its visit count incremented by one and
the White-perspective rollout result added to its accumulator with a sign
given by which colour's move led to the node: added as-is when the node
was reached by a WHITE move (its board has Black to move next), subtracted
when reached by a BLACK move (White to move next). -/
theorem backprop_updates_amended : ∀ (path : List BPNode) (r : Rat),
    backpropagate path r = path.map (fun n =>
      { turn := n.turn, visits := n.visits + 1,
        total := n.total + (if n.turn = Color.black then r else -r) }) := by
  intro path r
  induction path with
  | nil => rfl
  | cons n rest ih =>
    simp only [backpropagate, List.map_cons, ih]
    congr 1
    by_cases h : n.turn = Color.black
    · simp [h]
    · simp only [h, if_false]
      congr 1
      ring

/-- Amended claim C7: for a position with exactly one legal move, both
engines return that move; the MCTS engine returns it before entering the
iteration loop (same result for every iteration budget and parameter
choice), while the alpha-beta root search also returns it but still
performs exactly one `_negamax` call on it — `_search_root` has no
single-move shortcut. -/
theorem single_move_shortcut_amended {Pos : Type} (O : Oracle Pos) (P : MParams Pos)
    (b : Pos) (N depth : Nat) (m : Move) (h1 : O.legalMoves b = [m]) :
    mctsSearch O P b N = .ok m
    ∧ (∃ s, searchRootAB O b depth = .ok (m, s))
    ∧ searchRootCalls O b depth = 1 := by
  have hord : orderedMoves O b = [m] := by
    rw [orderedMoves, h1]
    rfl
  refine ⟨?_, ?_, ?_⟩
  · simp [mctsSearch, h1]
  · have hfst : (rootScanAB (negamaxAB O (depth - 1)) O b [m] m
        (-(CHECKMATE_SCORE + 1)) (-(CHECKMATE_SCORE + 1))).1 = m := by
      simp [rootScanAB]
    refine ⟨(rootScanAB (negamaxAB O (depth - 1)) O b [m] m
        (-(CHECKMATE_SCORE + 1)) (-(CHECKMATE_SCORE + 1))).2, ?_⟩
    have hpair : rootScanAB (negamaxAB O (depth - 1)) O b [m] m
        (-(CHECKMATE_SCORE + 1)) (-(CHECKMATE_SCORE + 1))
        = (m, (rootScanAB (negamaxAB O (depth - 1)) O b [m] m
            (-(CHECKMATE_SCORE + 1)) (-(CHECKMATE_SCORE + 1))).2) := by
      rw [Prod.ext_iff]
      exact ⟨hfst, rfl⟩
    unfold searchRootAB
    simp only [hord]
    exact congrArg Except.ok hpair
  · unfold searchRootCalls
    simp [hord, rootScanCount_eq]

/-- A board with its python-chess move stack: the current position plus
the stack of previous positions that `board.push` saves and `board.pop`
restores. -/
abbrev StB (Pos : Type) : Type := Pos × List Pos

/-- `board.push(move)`: apply the move, saving the previous position. -/
def pushB {Pos : Type} (O : Oracle Pos) (st : StB Pos) (m : Move) : StB Pos :=
  (O.play st.1 m, st.1 :: st.2)

/-- `board.pop()`: restore the most recently pushed position (raises on an
empty move stack, modelled by `none`). -/
def popB {Pos : Type} : StB Pos → Option (StB Pos)
  | (_, []) => none
  | (_, q :: rest) => some (q, rest)

/-- `_move_order_key` with the non-capture branch's speculative
push / is_check / pop made explicit on the move stack. -/
def keySt {Pos : Type} (O : Oracle Pos) (st : StB Pos) (m : Move) : Option (Int × StB Pos) :=
  if O.isCapture st.1 m then
    some (-(10 * victimValue O st.1 m - aggressorValue O st.1 m) - 20000 - promoBonus m, st)
  else
    match popB (pushB O st m) with
    | none => none
    | some st2 =>
      some ((if O.isCheck (pushB O st m).1 then -10000 else 0) - promoBonus m, st2)

lemma keySt_eq {Pos : Type} (O : Oracle Pos) (st : StB Pos) (m : Move) :
    keySt O st m = some (moveOrderKey O st.1 m, st) := by
  obtain ⟨cur, stk⟩ := st
  unfold keySt moveOrderKey pushB popB
  by_cases hc : O.isCapture cur m = true
  · simp [hc]
  · simp [hc]

/-- Key computation for a whole move list, threading the board state left
to right (CPython's `list.sort(key=f)` computes each key once, in list
order, before sorting). -/
def keysSt {Pos : Type} (O : Oracle Pos) : StB Pos → List Move → Option (List (Move × Int) × StB Pos)
  | st, [] => some ([], st)
  | st, m :: ms =>
    match keySt O st m with
    | none => none
    | some (k, st') =>
      match keysSt O st' ms with
      | none => none
      | some (prs, st'') => some ((m, k) :: prs, st'')

lemma keysSt_eq {Pos : Type} (O : Oracle Pos) : ∀ (ms : List Move) (st : StB Pos),
    keysSt O st ms = some (ms.map (fun m => (m, moveOrderKey O st.1 m)), st) := by
  intro ms
  induction ms with
  | nil => intro st; rfl
  | cons m ms ih =>
    intro st
    simp only [keysSt, keySt_eq, ih, List.map_cons]

/-- `_ordered_moves` with the stateful key computation: decorate each move
with its key (each computation pushing and popping the board), sort the
decorated list stably by key, and strip the keys. -/
def orderedMovesSt {Pos : Type} (O : Oracle Pos) (st : StB Pos) : Option (List Move × StB Pos) :=
  match keysSt O st (O.legalMoves st.1) with
  | none => none
  | some (prs, st') => some ((sortRanked (fun pr => pr.2) prs).map Prod.fst, st')

lemma insRanked_decorate {α : Type} (k : α → Int) (m : α) : ∀ l : List α,
    insRanked (fun pr => pr.2) (m, k m) (l.map (fun x => (x, k x)))
      = (insRanked k m l).map (fun x => (x, k x)) := by
  intro l
  induction l with
  | nil => rfl
  | cons x xs ih =>
    simp only [List.map_cons, insRanked]
    by_cases h : k x < k m
    · simp [h, ih]
    · simp [h]

lemma sortRanked_decorate {α : Type} (k : α → Int) : ∀ l : List α,
    sortRanked (fun pr => pr.2) (l.map (fun x => (x, k x)))
      = (sortRanked k l).map (fun x => (x, k x)) := by
  intro l
  induction l with
  | nil => rfl
  | cons x xs ih =>
    simp only [List.map_cons, sortRanked, ih, insRanked_decorate]

lemma orderedMovesSt_eq {Pos : Type} (O : Oracle Pos) (st : StB Pos) :
    orderedMovesSt O st = some (orderedMoves O st.1, st) := by
  unfold orderedMovesSt
  rw [keysSt_eq]
  show some ((sortRanked (fun pr => pr.2)
    ((O.legalMoves st.1).map (fun m => (m, moveOrderKey O st.1 m)))).map Prod.fst, st) = _
  rw [sortRanked_decorate]
  rw [orderedMoves, List.map_map]
  have hcomp : (Prod.fst ∘ fun x : Move => (x, moveOrderKey O st.1 x)) = fun x : Move => x := rfl
  rw [hcomp, List.map_id']

/-- The `_negamax` move loop with the push / recurse / pop sequence made
explicit on the move stack. -/
def abScanSt {Pos : Type} (f : StB Pos → Int → Int → Option (Int × StB Pos)) (O : Oracle Pos) :
    List Move → StB Pos → Int → Int → Int → Option (Int × StB Pos)
  | [], st, best, _, _ => some (best, st)
  | m :: ms, st, best, alpha, beta =>
    match f (pushB O st m) (-beta) (-alpha) with
    | none => none
    | some (cs, st2) =>
      match popB st2 with
      | none => none
      | some st3 =>
        let score := -cs
        let best' := max best score
        let alpha' := max alpha best'
        if beta ≤ alpha' then some (best', st3) else abScanSt f O ms st3 best' alpha' beta

/-- `_negamax` threading the board-with-stack through every push and pop. -/
def negamaxSt {Pos : Type} (O : Oracle Pos) : Nat → StB Pos → Int → Int → Option (Int × StB Pos)
  | 0, st, _, _ => some (evaluate O st.1, st)
  | d + 1, st, alpha, beta =>
    if O.isGameOver st.1 then some (evaluate O st.1, st)
    else
      match orderedMovesSt O st with
      | none => none
      | some (ms, st') => abScanSt (negamaxSt O d) O ms st' (-(CHECKMATE_SCORE + 1)) alpha beta

lemma abScanSt_eq {Pos : Type} (f : StB Pos → Int → Int → Option (Int × StB Pos))
    (fp : Pos → Int → Int → Int) (O : Oracle Pos)
    (hf : ∀ st a2 b2, f st a2 b2 = some (fp st.1 a2 b2, st)) :
    ∀ (ms : List Move) (st : StB Pos) (best alpha beta : Int),
      abScanSt f O ms st best alpha beta
        = some (abScan fp O st.1 ms best alpha beta, st) := by
  intro ms
  induction ms with
  | nil => intro st best alpha beta; rfl
  | cons m ms ih =>
    intro st best alpha beta
    obtain ⟨cur, stk⟩ := st
    simp only [abScanSt, abScan, hf, pushB, popB]
    split
    · rfl
    · exact ih _ _ _ _

lemma negamaxSt_eq {Pos : Type} (O : Oracle Pos) : ∀ (d : Nat) (st : StB Pos) (a2 b2 : Int),
    negamaxSt O d st a2 b2 = some (negamaxAB O d st.1 a2 b2, st) := by
  intro d
  induction d with
  | zero => intro st a2 b2; rfl
  | succ d ih =>
    intro st a2 b2
    simp only [negamaxSt, negamaxAB]
    by_cases hgo : O.isGameOver st.1 = true
    · rw [if_pos hgo, if_pos hgo]
    · rw [if_neg hgo, if_neg hgo, orderedMovesSt_eq]
      exact abScanSt_eq _ _ O (fun st' a' b' => ih st' a' b') _ _ _ _ _

/-- The `_search_root` loop threading the board-with-stack. -/
def rootScanSt {Pos : Type} (f : StB Pos → Int → Int → Option (Int × StB Pos)) (O : Oracle Pos) :
    List Move → StB Pos → Move → Int → Int → Option ((Move × Int) × StB Pos)
  | [], st, bm, bs, _ => some ((bm, bs), st)
  | m :: ms, st, bm, bs, alpha =>
    match f (pushB O st m) (-(CHECKMATE_SCORE + 1)) (-alpha) with
    | none => none
    | some (cs, st2) =>
      match popB st2 with
      | none => none
      | some st3 =>
        let score := -cs
        rootScanSt f O ms st3 (if bs < score then m else bm) (max bs score) (max alpha score)

lemma rootScanSt_eq {Pos : Type} (f : StB Pos → Int → Int → Option (Int × StB Pos))
    (fp : Pos → Int → Int → Int) (O : Oracle Pos)
    (hf : ∀ st a2 b2, f st a2 b2 = some (fp st.1 a2 b2, st)) :
    ∀ (ms : List Move) (st : StB Pos) (bm : Move) (bs alpha : Int),
      rootScanSt f O ms st bm bs alpha
        = some (rootScanAB fp O st.1 ms bm bs alpha, st) := by
  intro ms
  induction ms with
  | nil => intro st bm bs alpha; rfl
  | cons m ms ih =>
    intro st bm bs alpha
    obtain ⟨cur, stk⟩ := st
    simp only [rootScanSt, rootScanAB, hf, pushB, popB]
    exact ih _ _ _ _

/-- `_search_root` threading the board-with-stack through the orderer and
the negamax recursion. -/
def searchRootSt {Pos : Type} (O : Oracle Pos) (st : StB Pos) (depth : Nat) :
    Except String ((Move × Int) × StB Pos) :=
  match orderedMovesSt O st with
  | none => .error "pop from empty move stack"
  | some (ms, st') =>
    match ms with
    | [] => .error "No legal moves available in this position."
    | m :: ms' =>
      match rootScanSt (negamaxSt O (depth - 1)) O (m :: ms') st' m
          (-(CHECKMATE_SCORE + 1)) (-(CHECKMATE_SCORE + 1)) with
      | none => .error "pop from empty move stack"
      | some res => .ok res

/-- `MinimaxAgent.select_move`: copy the board (a fresh value with an empty
move stack) and run `_search_root` on the copy; the caller's state is
returned untouched. -/
def minimaxSelectMove {Pos : Type} (O : Oracle Pos) (st : StB Pos) (depth : Nat) :
    Except String Move × StB Pos :=
  ((searchRootSt O (st.1, []) depth).map (fun res => res.1.1), st)

/-- `MCTSAgent.select_move`: copy the board and run `_mcts_search` on the
copy; `_mcts_search` never pushes the caller's board (it only enumerates
legal moves and works on `board.copy()` snapshots), so the caller's state
is returned untouched. -/
def mctsSelectMove {Pos : Type} (O : Oracle Pos) (P : MParams Pos) (st : StB Pos) (N : Nat) :
    Except String Move × StB Pos :=
  (mctsSearch O P st.1 N, st)

lemma searchRootSt_eq {Pos : Type} (O : Oracle Pos) (st : StB Pos) (depth : Nat) :
    searchRootSt O st depth = (searchRootAB O st.1 depth).map (fun r => (r, st)) := by
  unfold searchRootSt searchRootAB
  rw [orderedMovesSt_eq]
  cases hm : orderedMoves O st.1 with
  | nil => rfl
  | cons m ms =>
    simp only [rootScanSt_eq (negamaxSt O (depth - 1)) (negamaxAB O (depth - 1)) O
      (fun s a' b' => negamaxSt_eq O (depth - 1) s a' b')]
    rfl

/-- Claim C9: calling select_move on either agent leaves the caller's
position unchanged: the façade runs on a copy, and inside the alpha-beta
search every speculative push — including the move orderer's check
probe — is balanced by a pop, so the state-threaded root search returns
exactly the input board-with-stack alongside the pure result; the MCTS
façade likewise returns the caller's state untouched. -/
theorem select_move_preserves_position {Pos : Type} (O : Oracle Pos) (P : MParams Pos)
    (st : StB Pos) (N depth : Nat) :
    searchRootSt O st depth = (searchRootAB O st.1 depth).map (fun r => (r, st))
    ∧ minimaxSelectMove O st depth
        = ((searchRootAB O st.1 depth).map (fun r => r.1), st)
    ∧ mctsSelectMove O P st N = (mctsSearch O P st.1 N, st) := by
  refine ⟨searchRootSt_eq O st depth, ?_, rfl⟩
  unfold minimaxSelectMove
  rw [searchRootSt_eq O (st.1, []) depth]
  cases searchRootAB O st.1 depth with
  | error e => rfl
  | ok r => rfl

/-- A move literal used by the concrete witness oracles. -/
def mvA : Move := ⟨0, 0, none⟩

/-- A second move literal used by the concrete witness oracles. -/
def mvB : Move := ⟨1, 1, none⟩

/-- A minimal concrete oracle on Nat positions: positions 0 and 1 offer two
legal moves, the game is over from position 2 on, no pieces on the board.
It satisfies the chess well-formedness fact (no legal moves → game over). -/
def toyO : Oracle Nat where
  pieceAt := fun _ _ => none
  turn := fun n => if n % 2 = 0 then Color.white else Color.black
  isCheckmate := fun _ => false
  isStalemate := fun _ => false
  isInsufficientMaterial := fun _ => false
  canClaimDraw := fun _ => false
  isCheck := fun _ => false
  isGameOver := fun n => decide (2 ≤ n)
  legalMoves := fun n => if n < 2 then [mvA, mvB] else []
  play := fun n _ => n + 1
  isCapture := fun _ _ => false

lemma toyO_wf : ∀ p, toyO.legalMoves p = [] → toyO.isGameOver p = true := by
  intro p h
  by_cases hp : p < 2
  · exfalso
    simp [toyO, hp] at h
  · simp only [toyO, decide_eq_true_eq]
    omega

/-- Concrete injected-randomness parameters: identity shuffle, first-child
selection, zero rollout results, zero fallback index. -/
def toyP : MParams Nat where
  sh := id
  sel := fun _ _ => 0
  roll := fun _ _ => 0
  rnd := 0

lemma toyP_sh : ∀ l, (toyP.sh l).Perm l := fun l => List.Perm.refl l

/-- An oracle with exactly one legal move at position 0 (for claim C7). -/
def toySingle : Oracle Nat where
  pieceAt := fun _ _ => none
  turn := fun _ => Color.white
  isCheckmate := fun _ => false
  isStalemate := fun _ => false
  isInsufficientMaterial := fun _ => false
  canClaimDraw := fun _ => false
  isCheck := fun _ => false
  isGameOver := fun n => decide (n ≠ 0)
  legalMoves := fun n => if n = 0 then [mvA] else []
  play := fun n _ => n + 1
  isCapture := fun _ _ => false

/-- Counterexample to claim C7 as stated: on a position with exactly one
legal move, `_search_root` still performs one `_negamax` call — it has no
single-move shortcut — refuting "the alpha-beta engine returns it without
recursing into the negamax search". -/
theorem single_move_root_still_searches_counterexample :
    toySingle.legalMoves 0 = [mvA]
    ∧ searchRootCalls toySingle 0 1 = 1
    ∧ (1 : Nat) ≠ 0 := by
  refine ⟨rfl, ?_, by decide⟩
  unfold searchRootCalls
  have hord : orderedMoves toySingle 0 = [mvA] := rfl
  simp [hord, rootScanCount_eq]

/-- An oracle modelling a position that python-chess reports game-over
while legal moves remain — as with insufficient material in K+N vs K,
FEN 8/8/8/8/8/k7/8/KN6 w - - 0 1, where `is_game_over()` is true but
several knight and king moves are legal (claim C8's counterexample). -/
def toyTerminal : Oracle Nat where
  pieceAt := fun _ _ => none
  turn := fun _ => Color.white
  isCheckmate := fun _ => false
  isStalemate := fun _ => false
  isInsufficientMaterial := fun _ => true
  canClaimDraw := fun _ => false
  isCheck := fun _ => false
  isGameOver := fun _ => true
  legalMoves := fun _ => [mvA, mvB]
  play := fun n _ => n + 1
  isCapture := fun _ _ => false

/-- Counterexample to claim C8 as stated: from a game-over root with two
legal moves, one completed iteration stops selection at the terminal root,
never creates a child, and backpropagates through the root alone — the
root's visit count is 1 but the children's visit counts sum to 0, not 1. -/
theorem visit_accounting_counterexample :
    2 ≤ (toyTerminal.legalMoves 0).length
    ∧ (mctsLoop toyTerminal toyP
        (.mk 0 none [] (toyP.sh (toyTerminal.legalMoves 0)) 0 0) 1).map
        (fun t => (t.visits, childVisitSum t)) = some (1, 0)
    ∧ (0 : Nat) ≠ 1 := by
  refine ⟨by decide, ?_, by decide⟩
  simp [mctsLoop, iter1, toyTerminal, toyP, childVisitSum, bump_mk,
    MTree.visits_mk, MTree.children_mk]

/-- Witness for claim C1 at a concrete oracle, position and depth. -/
theorem pruned_root_search_equals_unpruned_witness :
    searchRootAB toyO 0 2 = searchRootFull toyO 0 2 :=
  pruned_root_search_equals_unpruned toyO toyO_wf 0 2 (by omega)

/-- Witness for claim C3 at a concrete oracle, position, budget and depth. -/
theorem engines_return_legal_moves_witness :
    (∀ m s, searchRootAB toyO 0 2 = .ok (m, s) → m ∈ toyO.legalMoves 0)
    ∧ (∀ m, mctsSearch toyO toyP 0 1 = .ok m → m ∈ toyO.legalMoves 0) :=
  engines_return_legal_moves toyO toyP toyO_wf toyP_sh 0 1 2 (by decide)

/-- Witness for claim C4 at a concrete oracle, position, budget and depth. -/
theorem raises_iff_no_legal_moves_witness :
    ((∃ e, searchRootAB toyO 0 2 = .error e) ↔ toyO.legalMoves 0 = [])
    ∧ ((∃ e, mctsSearch toyO toyP 0 1 = .error e) ↔ toyO.legalMoves 0 = []) :=
  raises_iff_no_legal_moves toyO toyP toyO_wf toyP_sh 0 1 2

/-- Witness for the amended claim C7 at a concrete single-move position. -/
theorem single_move_shortcut_amended_witness :
    mctsSearch toySingle toyP 0 1 = .ok mvA
    ∧ (∃ s, searchRootAB toySingle 0 1 = .ok (mvA, s))
    ∧ searchRootCalls toySingle 0 1 = 1 :=
  single_move_shortcut_amended toySingle toyP 0 1 1 mvA rfl

/-- Witness for the amended claim C8 at a concrete non-terminal root with
two legal moves, after three iterations. -/
theorem visit_accounting_amended_witness :
    ∃ r, mctsLoop toyO toyP (.mk 0 none [] (toyP.sh (toyO.legalMoves 0)) 0 0) 3 = some r ∧
      r.visits = 3 ∧ childVisitSum r = 3 :=
  visit_accounting_amended toyO toyP toyO_wf toyP_sh 0 (by decide) rfl 3

/-- Witness for claim C10 at a concrete oracle, depth 2 and fuel 3. -/
theorem negamax_terminates_on_nonneg_depth_witness :
    negamaxFuel toyO 3 0 2 (-(CHECKMATE_SCORE + 1)) (CHECKMATE_SCORE + 1)
      = some (negamaxAB toyO 2 0 (-(CHECKMATE_SCORE + 1)) (CHECKMATE_SCORE + 1)) :=
  (negamax_terminates_on_nonneg_depth toyO 2 (by omega)).1 3 (by omega) 0
    (-(CHECKMATE_SCORE + 1)) (CHECKMATE_SCORE + 1)
